import Mathlib

/-!
Shallow embedding of the rune-calculator core
(`src/core/rune-core.ts`, `src/lib/formatters.ts`).

JavaScript numbers are modelled as exact rationals together with the
special values `NaN`, `Infinity` and `-Infinity`.  Rounding of finite
values to binary64 is abstracted away (arithmetic on finite values is
exact), but overflow to `Infinity` is modelled with an explicit cutoff,
since the code under verification guards against non-finite results.
Strings are modelled as `List Char`; the JavaScript string operations
used by the code (`trim`, `toLowerCase`, `endsWith`, `slice`,
`includes`, `parseFloat`) are modelled on ASCII data, which covers every
string the calculator manipulates.
-/

set_option maxRecDepth 100000

namespace RuneCalc

/-- Model of a JavaScript number. -/
inductive JsNum where
  | nan : JsNum
  | inf : JsNum
  | negInf : JsNum
  | num : ℚ → JsNum
deriving DecidableEq, Repr

/-- Binary64 overflow cutoff: finite doubles are below `2^1024`
(computed through `ℕ` so that it evaluates by literal arithmetic). -/
def jsOverflow : ℚ := ((2 ^ 1024 : ℕ) : ℚ)

/-- Round an exact rational into the modelled double range: values at or
beyond the cutoff overflow to the corresponding infinity. -/
def fitJs (q : ℚ) : JsNum :=
  if jsOverflow ≤ q then .inf
  else if q ≤ -jsOverflow then .negInf
  else .num q

/-- `Number.isFinite` — also false on `NaN`, so it models the code's
`isNaN(x) || !isFinite(x)` checks at once. -/
def JsNum.isFiniteB : JsNum → Bool
  | .num _ => true
  | _ => false

/-- Finite payload of a modelled number, if any. -/
def JsNum.toQ : JsNum → Option ℚ
  | .num q => some q
  | _ => none

/-- JavaScript subtraction on modelled numbers (used only by the sort
comparators, whose operands are finite or `Infinity`). -/
def jsSub : JsNum → JsNum → JsNum
  | .nan, _ => .nan
  | _, .nan => .nan
  | .inf, .inf => .nan
  | .inf, _ => .inf
  | .negInf, .negInf => .nan
  | .negInf, _ => .negInf
  | .num _, .inf => .negInf
  | .num _, .negInf => .inf
  | .num a, .num b => fitJs (a - b)

/-- `x > 0` on modelled numbers (`NaN > 0` is false in JavaScript). -/
def jsGtZero : JsNum → Bool
  | .num q => decide (0 < q)
  | .inf => true
  | _ => false

/-- `x >= c` for a modelled number against a rational constant
(false on `NaN`). -/
def jsGe (x : JsNum) (c : ℚ) : Bool :=
  match x with
  | .num q => decide (c ≤ q)
  | .inf => true
  | _ => false

/-! ### Characters and strings -/

/-- The whitespace characters recognised by `String.prototype.trim` and
`parseFloat` (ASCII subset). -/
def jsWhitespace (c : Char) : Bool :=
  c = ' ' || c = '\t' || c = '\n' || c = '\r' || c = '\x0b' || c = '\x0c'

/-- `String.prototype.trim`. -/
def jsTrim (s : List Char) : List Char :=
  ((s.dropWhile jsWhitespace).reverse.dropWhile jsWhitespace).reverse

/-- `String.prototype.toLowerCase` (ASCII). -/
def toLowerStr (s : List Char) : List Char := s.map Char.toLower

/-- Numeric value of a digit string, most significant digit first. -/
def digitsVal (l : List Char) : ℕ :=
  l.foldl (fun a c => 10 * a + (c.toNat - 48)) 0

/-- Optional exponent following the `e`/`E` of a decimal literal:
`parseFloat` only consumes the exponent marker when at least one digit
follows the optional sign; otherwise it backtracks (modelled by
returning `none`, in which case the exponent contributes nothing). -/
def expVal (s : List Char) : Option ℤ :=
  if s.head? = some '+' then
    let d := s.tail.takeWhile Char.isDigit
    if d.isEmpty then none else some (digitsVal d : ℤ)
  else if s.head? = some '-' then
    let d := s.tail.takeWhile Char.isDigit
    if d.isEmpty then none else some (-(digitsVal d : ℤ))
  else
    let d := s.takeWhile Char.isDigit
    if d.isEmpty then none else some (digitsVal d : ℤ)

/-- Model of the global `parseFloat`: skip leading whitespace, read an
optional sign, then the longest prefix matching `"Infinity"` or
`digits [. digits] [e [sign] digits]`; trailing characters are ignored;
`NaN` when no prefix parses.  Finite literal values round through
`fitJs`. -/
def parseFloatQ (input : List Char) : JsNum :=
  let s := input.dropWhile jsWhitespace
  let sgnIsNeg : Bool := decide (s.head? = some '-')
  let s1 : List Char :=
    if s.head? = some '+' ∨ s.head? = some '-' then s.tail else s
  if s1.take 8 = "Infinity".data then
    if sgnIsNeg then .negInf else .inf
  else
    let ip := s1.takeWhile Char.isDigit
    let r1 := s1.dropWhile Char.isDigit
    let fp : List Char :=
      if r1.head? = some '.' then r1.tail.takeWhile Char.isDigit else []
    let r2 : List Char :=
      if r1.head? = some '.' then r1.tail.dropWhile Char.isDigit else r1
    if ip.isEmpty && fp.isEmpty then .nan
    else
      let mant : ℚ := (digitsVal ip : ℚ) + (digitsVal fp : ℚ) / 10 ^ fp.length
      let ex : ℤ :=
        if r2.head? = some 'e' ∨ r2.head? = some 'E' then
          (expVal r2.tail).getD 0
        else 0
      fitJs ((if sgnIsNeg then -1 else 1) * mant * (10 : ℚ) ^ ex)

/-! ### Stable sorting

`Array.prototype.sort` is stable (ECMA-262) and, for a consistent
comparator `c`, places `a` before `b` exactly when `¬ (c a b > 0)`.
Any stable sort realises this behaviour; we model it with a stable
insertion sort parameterised by the Boolean relation
`le a b = ¬ (c a b > 0)`. -/

/-- Insert `a` into `l` before the first element `b` with `le a b`;
since `a` originally preceded every element of `l`, this keeps ties in
their original order. -/
def orderedInsertBy (le : α → α → Bool) (a : α) : List α → List α
  | [] => [a]
  | b :: l => if le a b then a :: b :: l else b :: orderedInsertBy le a l

/-- Stable insertion sort. -/
def stableSortBy (le : α → α → Bool) : List α → List α
  | [] => []
  | x :: xs => orderedInsertBy le x (stableSortBy le xs)

/-! ### Scale utilities (`buildScaleUtils`) -/

/-- A raw suffix table: the insertion-ordered entry list of the
JavaScript object `Scales` (`Object.entries` iterates string keys in
insertion order; keys are unique). -/
abbrev Scales := List (List Char × ℚ)

structure ScaleUtils where
  scaleEntries : List (List Char × ℚ)
  lowerCaseScaleMap : List (List Char × List (List Char))
  conflictingLowerCaseSuffixes : List (List Char)
deriving DecidableEq, Repr

/-- Record lookup `lowerCaseScaleMap[lower]`, defaulting to the empty
group when absent. -/
def groupLookup (m : List (List Char × List (List Char))) (k : List Char) :
    List (List Char) :=
  ((m.find? (fun e => e.1 = k)).map (·.2)).getD []

/-- `lowerCaseScaleMap[lower].push(suffix)`, creating the group first
when absent (insertion order of groups preserved). -/
def pushGroup (m : List (List Char × List (List Char))) (k v : List Char) :
    List (List Char × List (List Char)) :=
  match m with
  | [] => [(k, [v])]
  | (k', g) :: rest =>
    if k' = k then (k', g ++ [v]) :: rest else (k', g) :: pushGroup rest k v

/-- `buildScaleUtils` (rune-core.ts lines 14–40): drop the empty-string
entry, sort the rest descending by multiplier (stable; JS comparator
`(b, a) ↦ b - a`), prepend `("", 1)`, and index case-insensitive
suffix groups, marking those with more than one member as conflicting
(`Set.add` is modelled by a duplicate-free append). -/
def buildScaleUtils (scales : Scales) : ScaleUtils :=
  let scaleEntries :=
    stableSortBy (fun a b => !(decide (a.2 < b.2)))
      (scales.filter (fun e => !e.1.isEmpty))
  let step := fun (st : List (List Char × List (List Char)) × List (List Char))
      (e : List Char × ℚ) =>
    let lower := toLowerStr e.1
    let m := pushGroup st.1 lower e.1
    if 1 < (groupLookup m lower).length && !(st.2.contains lower) then
      (m, st.2 ++ [lower])
    else (m, st.2)
  let built := scaleEntries.foldl step ([], [])
  { scaleEntries := (([] : List Char), (1 : ℚ)) :: scaleEntries
    lowerCaseScaleMap := built.1
    conflictingLowerCaseSuffixes := built.2 }

/-! ### `parseScaled` -/

structure ParseResult where
  value : JsNum
  warning : Option (List Char)
deriving DecidableEq, Repr

/-- The suffix-matching loop of `parseScaled` (rune-core.ts lines
62–75): scan the ordered entries, skip the empty suffix, and accept the
first suffix that case-insensitively ends the input and whose remaining
prefix parses as a finite number; returns the captured
`(numPart, suffix, multiplier)`. -/
def suffixScan (trimmed : List Char) :
    List (List Char × ℚ) → Option (List Char × List Char × ℚ)
  | [] => none
  | (sfx, mult) :: rest =>
    if !sfx.isEmpty && (toLowerStr sfx).isSuffixOf (toLowerStr trimmed) then
      let numPart := trimmed.take (trimmed.length - sfx.length)
      if (parseFloatQ numPart).isFiniteB then some (numPart, sfx, mult)
      else suffixScan trimmed rest
    else suffixScan trimmed rest

/-- The ambiguity warning text
`Ambiguous suffix "<sfx>" - could also mean: <alts>`. -/
def ambiguityMsg (sfx : List Char) (alts : List (List Char)) : List Char :=
  "Ambiguous suffix \"".data ++ sfx ++ "\" - could also mean: ".data ++
    List.intercalate ", ".data alts

/-- `parseScaled` (rune-core.ts lines 42–108). -/
def parseScaled (input : List Char) (su : ScaleUtils) : ParseResult :=
  let trimmed := jsTrim input
  if trimmed.isEmpty then ⟨.num 0, some "Empty input".data⟩
  else if trimmed.contains 'e' || trimmed.contains 'E' then
    let n := parseFloatQ trimmed
    if !n.isFiniteB then ⟨.num 0, some "Invalid scientific notation".data⟩
    else ⟨n, none⟩
  else
    match suffixScan trimmed su.scaleEntries with
    | none =>
      let n := parseFloatQ trimmed
      if !n.isFiniteB then ⟨.num 0, some "Invalid number format".data⟩
      else ⟨n, none⟩
    | some (numPart, sfx, mult) =>
      match parseFloatQ numPart with
      | .num baseNum =>
        let result := fitJs (baseNum * mult)
        if !result.isFiniteB then ⟨.num 0, some "Result too large".data⟩
        else
          let lowerSuffix := toLowerStr sfx
          if su.conflictingLowerCaseSuffixes.contains lowerSuffix then
            let alternatives :=
              (groupLookup su.lowerCaseScaleMap lowerSuffix).filter
                (fun s => s ≠ sfx)
            if !alternatives.isEmpty then
              ⟨result, some (ambiguityMsg sfx alternatives)⟩
            else ⟨result, none⟩
          else ⟨result, none⟩
      | _ => ⟨.num 0, some "Invalid number part before suffix".data⟩

/-! ### Number printing -/

/-- Digit-list helper with explicit fuel, so that it is structurally
recursive and concrete values reduce in the kernel. -/
def natToDigitsF : ℕ → ℕ → List Char
  | 0, _ => []
  | fuel + 1, n =>
    if n < 10 then [Char.ofNat (48 + n)]
    else natToDigitsF fuel (n / 10) ++ [Char.ofNat (48 + n % 10)]

/-- Decimal digits of a natural number, most significant first. -/
def natToDigits (n : ℕ) : List Char := natToDigitsF (n + 1) n

theorem natToDigitsF_congr (n : ℕ) : ∀ f1 f2, n < f1 → n < f2 →
    natToDigitsF f1 n = natToDigitsF f2 n := by
  induction n using Nat.strong_induction_on with
  | _ n ih =>
    intro f1 f2 h1 h2
    match f1, f2 with
    | fuel1 + 1, fuel2 + 1 =>
      rw [natToDigitsF, natToDigitsF]
      split
      · rfl
      · rw [ih (n / 10) (by omega) fuel1 fuel2 (by omega) (by omega)]

/-- The intended recursion of `natToDigits`. -/
theorem natToDigits_eq (n : ℕ) :
    natToDigits n = if n < 10 then [Char.ofNat (48 + n)]
      else natToDigits (n / 10) ++ [Char.ofNat (48 + n % 10)] := by
  unfold natToDigits
  rw [natToDigitsF]
  split
  · rfl
  · rw [natToDigitsF_congr (n / 10) n (n / 10 + 1) (by omega) (by omega)]

/-- Multiplicity helper with explicit fuel. -/
def pMultF : ℕ → ℕ → ℕ → ℕ
  | 0, _, _ => 0
  | fuel + 1, p, n =>
    if 1 < p ∧ 1 ≤ n ∧ p ∣ n then pMultF fuel p (n / p) + 1 else 0

/-- Multiplicity of `p` in `n` (0 when `p ≤ 1` or `n = 0`). -/
def pMult (p n : ℕ) : ℕ := pMultF (n + 1) p n

theorem pMultF_congr (p : ℕ) (n : ℕ) : ∀ f1 f2, n < f1 → n < f2 →
    pMultF f1 p n = pMultF f2 p n := by
  induction n using Nat.strong_induction_on with
  | _ n ih =>
    intro f1 f2 h1 h2
    match f1, f2 with
    | fuel1 + 1, fuel2 + 1 =>
      rw [pMultF, pMultF]
      split
      · rename_i hc
        rw [ih (n / p) (Nat.div_lt_self (by omega) hc.1) fuel1 fuel2
          (by have := Nat.div_lt_self (show 0 < n by omega) hc.1; omega)
          (by have := Nat.div_lt_self (show 0 < n by omega) hc.1; omega)]
      · rfl

/-- The intended recursion of `pMult`. -/
theorem pMult_eq (p n : ℕ) :
    pMult p n = if 1 < p ∧ 1 ≤ n ∧ p ∣ n then pMult p (n / p) + 1 else 0 := by
  unfold pMult
  rw [pMultF]
  split
  · rename_i hc
    rw [pMultF_congr p (n / p) n (n / p + 1)
      (by have := Nat.div_lt_self (show 0 < n by omega) hc.1; omega) (by omega)]
  · rfl

/-- Smallest `k` with `q * 10^k` integral, for decimal rationals. -/
def decExponent (q : ℚ) : ℕ := max (pMult 2 q.den) (pMult 5 q.den)

/-- Whether `q` has a finite decimal expansion (denominator `2^a·5^b`);
true of every binary64 value. -/
def isDecimalRat (q : ℚ) : Bool :=
  q.den = 2 ^ pMult 2 q.den * 5 ^ pMult 5 q.den

/-- Model of `Number.prototype.toString`.  In the exact-rational model a
finite value prints as its exact decimal numeral (sign, integer part,
and fractional part down to the last non-zero digit), which is what
JavaScript's shortest-round-trip printing produces for a value that is
exactly `m·10^(-k)`.  JavaScript's switch to exponential notation for
magnitudes `≥ 1e21` or `< 1e-6` is not modelled (both spellings reparse
to the same value).  Rationals whose denominator has a prime factor
other than 2 or 5 are not binary64 values and cannot arise; a
placeholder is printed for totality. -/
def jsNumToString : JsNum → List Char
  | .nan => "NaN".data
  | .inf => "Infinity".data
  | .negInf => "-Infinity".data
  | .num q =>
    if q = 0 then "0".data
    else if isDecimalRat q then
      let k := decExponent q
      let m := (q * 10 ^ k).num.natAbs
      let sign : List Char := if q < 0 then ['-'] else []
      if k = 0 then sign ++ natToDigits m
      else
        let ds := natToDigits m
        let padded := List.replicate (k + 1 - ds.length) '0' ++ ds
        sign ++ padded.take (padded.length - k) ++ ['.'] ++
          padded.drop (padded.length - k)
    else "?".data

/-- Base-10 logarithm with explicit fuel (so concrete values reduce in
the kernel; `Nat.log` is well-founded recursive and does not). -/
def log10F : ℕ → ℕ → ℕ
  | 0, _ => 0
  | fuel + 1, n => if n < 10 then 0 else log10F fuel (n / 10) + 1

def log10 (n : ℕ) : ℕ := log10F (n + 1) n

theorem log10F_congr (n : ℕ) : ∀ f1 f2, n < f1 → n < f2 →
    log10F f1 n = log10F f2 n := by
  induction n using Nat.strong_induction_on with
  | _ n ih =>
    intro f1 f2 h1 h2
    match f1, f2 with
    | fuel1 + 1, fuel2 + 1 =>
      rw [log10F, log10F]
      split
      · rfl
      · rw [ih (n / 10) (by omega) fuel1 fuel2 (by omega) (by omega)]

/-- The intended recursion of `log10`. -/
theorem log10_eq (n : ℕ) :
    log10 n = if n < 10 then 0 else log10 (n / 10) + 1 := by
  unfold log10
  rw [log10F]
  split
  · rfl
  · rw [log10F_congr (n / 10) n (n / 10 + 1) (by omega) (by omega)]

theorem log10_eq_log (n : ℕ) : log10 n = Nat.log 10 n := by
  induction n using Nat.strong_induction_on with
  | _ n ih =>
    rw [log10_eq]
    split
    · rename_i h
      exact (Nat.log_of_lt h).symm
    · rename_i h
      push_neg at h
      rw [ih (n / 10) (by omega),
        Nat.log_of_one_lt_of_le (by norm_num) h]

/-- Model of `Number.prototype.toPrecision(3)` for values `≥ 1` (the
only ones `formatScaled` feeds it): round to three significant decimal
digits (ties upward, per ECMA-262 "pick the larger n"), then print in
fixed notation when the decimal exponent is below 3 and in exponential
notation (`d.dde+<exp>`) otherwise.  Inputs below 1 print a placeholder
for totality. -/
def prec3Exp (q : ℚ) : ℕ := log10 (q.num.natAbs / q.den)

/-- Rounded 3-digit mantissa (ties upward, per ECMA-262). -/
def prec3Round (q : ℚ) : ℕ :=
  ⌊q * (10 : ℚ) ^ ((2 : ℤ) - prec3Exp q) + 1 / 2⌋.natAbs

def toPrecision3 (q : ℚ) : List Char :=
  if q < 1 then "?".data
  else
    let e0 := prec3Exp q
    let n0 := prec3Round q
    let n := if n0 = 1000 then 100 else n0
    let e := if n0 = 1000 then e0 + 1 else e0
    let ds := natToDigits n
    if e < 3 then
      if e = 2 then ds else ds.take (e + 1) ++ ['.'] ++ ds.drop (e + 1)
    else
      ds.take 1 ++ ['.'] ++ ds.drop 1 ++ ['e', '+'] ++ natToDigits e

/-! ### `formatScaled` -/

/-- The suffix-selection loop of `formatScaled`: first non-empty suffix
whose multiplier is at most the absolute value. -/
def formatScan (absNum : ℚ) :
    List (List Char × ℚ) → Option (List Char × ℚ)
  | [] => none
  | (sfx, mult) :: rest =>
    if !sfx.isEmpty && mult ≤ absNum then some (sfx, mult)
    else formatScan absNum rest

/-- `formatScaled` (rune-core.ts lines 110–133). -/
def formatScaled (n : JsNum) (su : ScaleUtils) : List Char :=
  match n with
  | .num q =>
    if q = 0 then jsNumToString (.num q)
    else
      let absNum := |q|
      let sign : List Char := if q < 0 then ['-'] else []
      if absNum < 1000 then jsNumToString (.num q)
      else
        match formatScan absNum su.scaleEntries with
        | some (sfx, mult) =>
          sign ++ toPrecision3 (absNum / mult) ++ [' '] ++ sfx
        | none => jsNumToString (.num q)
  | other => jsNumToString other

/-! ### `formatTimeHuman` (formatters.ts lines 1–46) -/

/-- The unit table; `365.25 * 24 * 60 * 60 = 31557600` exactly. -/
def TIME_UNITS : List (ℕ × List Char) :=
  [(31557600, "year".data), (86400, "day".data), (3600, "hour".data),
   (60, "minute".data), (1, "second".data)]

/-- One emitted unit: `"<count> <unit>"`, pluralised when `count ≠ 1`. -/
def renderUnit (count : ℕ) (name : List Char) : List Char :=
  natToDigits count ++ [' '] ++ (if count = 1 then name else name ++ ['s'])

/-- The unit loop of `formatTimeHuman`: greedily consume units,
appending a part per consumed unit and stopping once three parts have
been produced. -/
def timePartsGo : List (ℕ × List Char) → ℕ → List (List Char) →
    List (List Char)
  | [], _, parts => parts
  | (u, nm) :: rest, remaining, parts =>
    if u ≤ remaining then
      let parts' := parts ++ [renderUnit (remaining / u) nm]
      if 3 ≤ parts'.length then parts'
      else timePartsGo rest (remaining % u) parts'
    else timePartsGo rest remaining parts

/-- `formatTimeHuman`.  The very-large guard threshold is
`1e15 * 365.25 * 24 * 60 * 60` seconds. -/
def formatTimeHuman (seconds : JsNum) : List Char :=
  match seconds with
  | .num s =>
    if s < 1 then "Instant".data
    else if (10 : ℚ) ^ 15 * 31557600 < s then ['…']
    else
      let parts := timePartsGo TIME_UNITS ⌊s⌋.toNat []
      if parts.isEmpty then "Instant".data
      else List.intercalate ", ".data parts
  | _ => "Never".data

/-! ### `timeSeconds` and `processRunes` -/

/-- `timeSeconds` (rune-core.ts lines 135–141).  The arguments are the
finite values the callers supply; the division of positives is exact in
the model. -/
def timeSeconds (rps luck chanceN : ℚ) : JsNum :=
  if rps ≤ 0 ∨ luck ≤ 0 ∨ chanceN ≤ 0 then .inf
  else .num (chanceN / (rps * luck))

/-- The fields of `RuneRecord` the core logic reads (`category`,
`rarity`, `hidden`, `boosts` and the chance display string are carried
through untouched and omitted from the model). -/
structure RuneRecord where
  id : List Char
  name : List Char
  sourceNote : List Char
  chanceN : ℚ
deriving DecidableEq, Repr

structure ProcessedRune extends RuneRecord where
  time : Option JsNum
  isSpecial : Bool
deriving DecidableEq, Repr

inductive SortDir where
  | asc
  | desc
deriving DecidableEq, Repr

/-- `ProcessOptions`; `text = []` models both an absent and an empty
filter string (both falsy in `if (opts.text)`), and `sort = none`
models an absent sort key. -/
structure ProcessOptions where
  text : List Char := []
  hideInstant : Bool := false
  sort : Option SortDir := none
deriving DecidableEq, Repr

/-- `a.time ?? Infinity`. -/
def timeKey (r : ProcessedRune) : JsNum := r.time.getD .inf

/-- Sort-callback semantics: `a` may stay before `b` unless the
comparator is positive. -/
def jsComparatorLe (cmp : α → α → JsNum) (a b : α) : Bool :=
  !(jsGtZero (cmp a b))

/-- Stage 1 of `processRunes`: attach `time` and `isSpecial`. -/
def mapStage (runes : List RuneRecord) (rps luck : ℚ) : List ProcessedRune :=
  runes.map fun r =>
    { toRuneRecord := r
      time := some (timeSeconds rps luck r.chanceN)
      isSpecial := false }

/-- `hay.includes(needle)`. -/
def includesStr (hay needle : List Char) : Bool :=
  decide (needle <:+: hay)

/-- Stage 2: case-insensitive substring filter on name and source
note. -/
def textFilterStage (text : List Char) (l : List ProcessedRune) :
    List ProcessedRune :=
  if text.isEmpty then l
  else
    let searchText := toLowerStr text
    l.filter fun r =>
      includesStr (toLowerStr r.name) searchText ||
        includesStr (toLowerStr r.sourceNote) searchText

/-- Stage 3: drop runes with a defined time below one second. -/
def hideInstantStage (hide : Bool) (l : List ProcessedRune) :
    List ProcessedRune :=
  if hide then l.filter (fun r => r.time = none || jsGe (timeKey r) 1)
  else l

/-- Stage 4: stable sort by time (comparator `timeA - timeB`, resp.
`timeB - timeA`, with undefined times read as `Infinity`). -/
def sortStage (dir : Option SortDir) (l : List ProcessedRune) :
    List ProcessedRune :=
  match dir with
  | none => l
  | some .asc =>
    stableSortBy (jsComparatorLe fun a b => jsSub (timeKey a) (timeKey b)) l
  | some .desc =>
    stableSortBy (jsComparatorLe fun a b => jsSub (timeKey b) (timeKey a)) l

/-- `processRunes` (rune-core.ts lines 154–200). -/
def processRunes (runes : List RuneRecord) (rps luck : ℚ)
    (opts : ProcessOptions) : List ProcessedRune :=
  sortStage opts.sort
    (hideInstantStage opts.hideInstant
      (textFilterStage opts.text (mapStage runes rps luck)))

/-! ## Lemmas about the stable sort -/

theorem orderedInsertBy_perm (le : α → α → Bool) (a : α) (l : List α) :
    (orderedInsertBy le a l).Perm (a :: l) := by
  induction l with
  | nil => simp [orderedInsertBy]
  | cons b t ih =>
    rw [orderedInsertBy]
    split
    · exact .refl _
    · exact (ih.cons b).trans (List.Perm.swap a b t)

theorem stableSortBy_perm (le : α → α → Bool) (l : List α) :
    (stableSortBy le l).Perm l := by
  induction l with
  | nil => exact .refl _
  | cons x xs ih => exact (orderedInsertBy_perm le x _).trans (ih.cons x)

theorem mem_orderedInsertBy {le : α → α → Bool} {a x : α} {l : List α} :
    x ∈ orderedInsertBy le a l ↔ x = a ∨ x ∈ l := by
  rw [(orderedInsertBy_perm le a l).mem_iff, List.mem_cons]

theorem orderedInsertBy_pairwise (le : α → α → Bool) (a : α) (l : List α)
    (hs : l.Pairwise (fun x y => le x y = true))
    (htot : ∀ b ∈ l, le a b = true ∨ le b a = true)
    (htrans : ∀ b ∈ l, ∀ c ∈ l,
      le a b = true → le b c = true → le a c = true) :
    (orderedInsertBy le a l).Pairwise (fun x y => le x y = true) := by
  induction l with
  | nil => simp [orderedInsertBy]
  | cons b t ih =>
    rw [List.pairwise_cons] at hs
    obtain ⟨hb, ht⟩ := hs
    rw [orderedInsertBy]
    by_cases h : le a b = true
    · rw [if_pos h]
      refine List.Pairwise.cons ?_ (List.Pairwise.cons hb ht)
      intro x hx
      rcases List.mem_cons.mp hx with rfl | hx
      · exact h
      · exact htrans b (by simp) x (by simp [hx]) h (hb x hx)
    · rw [if_neg h]
      refine List.Pairwise.cons ?_
        (ih ht (fun c hc => htot c (by simp [hc]))
          (fun c hc d hd => htrans c (by simp [hc]) d (by simp [hd])))
      intro x hx
      rcases mem_orderedInsertBy.mp hx with rfl | hx
      · rcases htot b (by simp) with h' | h'
        · exact absurd h' h
        · exact h'
      · exact hb x hx

theorem stableSortBy_pairwise (le : α → α → Bool) (l : List α)
    (htot : ∀ a ∈ l, ∀ b ∈ l, le a b = true ∨ le b a = true)
    (htrans : ∀ a ∈ l, ∀ b ∈ l, ∀ c ∈ l,
      le a b = true → le b c = true → le a c = true) :
    (stableSortBy le l).Pairwise (fun x y => le x y = true) := by
  induction l with
  | nil => simp [stableSortBy]
  | cons x xs ih =>
    rw [stableSortBy]
    have hmem : ∀ b ∈ stableSortBy le xs, b ∈ xs := fun b hb =>
      (stableSortBy_perm le xs).mem_iff.mp hb
    exact orderedInsertBy_pairwise le x _
      (ih (fun a ha b hb => htot a (by simp [ha]) b (by simp [hb]))
        (fun a ha b hb c hc =>
          htrans a (by simp [ha]) b (by simp [hb]) c (by simp [hc])))
      (fun b hb => htot x (by simp) b (by simp [hmem b hb]))
      (fun b hb c hc =>
        htrans x (by simp) b (by simp [hmem b hb]) c (by simp [hmem c hc]))

theorem filter_orderedInsertBy_pos (le : α → α → Bool) (p : α → Bool)
    (a : α) (l : List α) (hpa : p a = true)
    (hle : ∀ b ∈ l, p b = true → le a b = true) :
    (orderedInsertBy le a l).filter p = a :: l.filter p := by
  induction l with
  | nil => simp [orderedInsertBy, hpa]
  | cons b t ih =>
    rw [orderedInsertBy]
    by_cases h : le a b = true
    · rw [if_pos h]
      simp [List.filter_cons, hpa]
    · rw [if_neg h]
      have hpb : p b = false := by
        cases hpc : p b
        · rfl
        · exact absurd (hle b (by simp) hpc) h
      rw [List.filter_cons_of_neg (by simp [hpb]),
        List.filter_cons_of_neg (by simp [hpb])]
      exact ih (fun c hc => hle c (by simp [hc]))

theorem filter_orderedInsertBy_neg (le : α → α → Bool) (p : α → Bool)
    (a : α) (l : List α) (hpa : p a = false) :
    (orderedInsertBy le a l).filter p = l.filter p := by
  induction l with
  | nil => simp [orderedInsertBy, hpa]
  | cons b t ih =>
    rw [orderedInsertBy]
    split
    · simp [List.filter_cons, hpa]
    · rw [List.filter_cons, List.filter_cons]
      cases hpb : p b <;> simp [hpb, ih]

theorem stableSortBy_filter (le : α → α → Bool) (p : α → Bool) (l : List α)
    (hstab : ∀ a ∈ l, ∀ b ∈ l, p a = true → p b = true → le a b = true) :
    (stableSortBy le l).filter p = l.filter p := by
  induction l with
  | nil => rfl
  | cons x xs ih =>
    rw [stableSortBy]
    have ih' := ih (fun a ha b hb => hstab a (by simp [ha]) b (by simp [hb]))
    cases hpx : p x with
    | false =>
      rw [filter_orderedInsertBy_neg le p x _ hpx, ih',
        List.filter_cons_of_neg (by simp [hpx])]
    | true =>
      rw [filter_orderedInsertBy_pos le p x _ hpx
          (fun b hb hpb => hstab x (by simp) b
            (by simp [(stableSortBy_perm le xs).mem_iff.mp hb]) hpx hpb),
        ih', List.filter_cons_of_pos (by simp [hpx])]

/-! ## Example data

The suffix table used by the repository's own test suite. -/

def exampleScales : Scales :=
  [(([] : List Char), 1), ("k".data, 1000), ("K".data, 1000),
   ("M".data, 1000000), ("B".data, 1000000000), ("T".data, 1000000000000)]

def exampleSU : ScaleUtils := buildScaleUtils exampleScales

/-! ## C1 — `timeSeconds` -/

/-- C1: `timeSeconds(rps, luck, n)` returns `Infinity` whenever
`rps ≤ 0`, `luck ≤ 0` or `n ≤ 0`, and otherwise returns exactly
`n / (rps * luck)`; in particular `timeSeconds 10 2 1000000 = 50000`. -/
theorem c1_timeSeconds (rps luck n : ℚ) :
    ((rps ≤ 0 ∨ luck ≤ 0 ∨ n ≤ 0) → timeSeconds rps luck n = .inf) ∧
    (0 < rps → 0 < luck → 0 < n →
      timeSeconds rps luck n = .num (n / (rps * luck))) ∧
    timeSeconds 10 2 1000000 = .num 50000 := by
  refine ⟨fun h => ?_, fun h1 h2 h3 => ?_, ?_⟩
  · rw [timeSeconds, if_pos h]
  · rw [timeSeconds, if_neg (by push_neg; exact ⟨h1, h2, h3⟩)]
  · with_unfolding_all rfl

/-- Witness for C1 at concrete inputs. -/
theorem c1_timeSeconds_witness :
    timeSeconds 0 2 5 = .inf ∧ timeSeconds 10 2 1000000 = .num 50000 :=
  ⟨(c1_timeSeconds 0 2 5).1 (Or.inl le_rfl),
   by
     rw [(c1_timeSeconds 10 2 1000000).2.1 (by norm_num) (by norm_num)
       (by norm_num)]
     with_unfolding_all rfl⟩

/-! ## C4 — shape of `scaleEntries` -/

/-- C4 counterexample: with a table whose suffixes `k` and `K` share
the multiplier 1000, the entries after the `("", 1)` head are not
sorted *strictly* descending by multiplier. -/
theorem c4_scaleEntries_cex :
    (buildScaleUtils [(([] : List Char), (1 : ℚ)), ("k".data, 1000),
        ("K".data, 1000)]).scaleEntries
      = [([], 1), ("k".data, 1000), ("K".data, 1000)] ∧
    ¬ ((buildScaleUtils [(([] : List Char), (1 : ℚ)), ("k".data, 1000),
        ("K".data, 1000)]).scaleEntries.tail).Pairwise
        (fun a b => b.2 < a.2) :=
  ⟨by with_unfolding_all rfl,
   of_decide_eq_false (by with_unfolding_all rfl)⟩

/-- C4 amended: the `scaleEntries` sequence starts with `("", 1)` and
the remaining pairs are the table's non-empty-suffix pairs sorted
descending (non-increasing) by multiplier, pairs of equal multiplier
keeping their original table order. -/
theorem c4_scaleEntries_amended (scales : Scales)
    (_hbase : (([] : List Char), (1 : ℚ)) ∈ scales) :
    ∃ t, (buildScaleUtils scales).scaleEntries = ([], 1) :: t ∧
      t.Pairwise (fun a b => b.2 ≤ a.2) ∧
      t.Perm (scales.filter (fun e => !e.1.isEmpty)) ∧
      ∀ m : ℚ, t.filter (fun e => decide (e.2 = m)) =
        (scales.filter (fun e => !e.1.isEmpty)).filter
          (fun e => decide (e.2 = m)) := by
  refine ⟨stableSortBy (fun a b => !(decide (a.2 < b.2)))
      (scales.filter (fun e => !e.1.isEmpty)), rfl, ?_,
      stableSortBy_perm _ _, fun m => ?_⟩
  · refine List.Pairwise.imp ?_ (stableSortBy_pairwise _ _ ?_ ?_)
    · intro a b h
      simpa [not_lt] using h
    · intro a _ b _
      rcases le_total b.2 a.2 with h | h
      · exact Or.inl (by simpa [not_lt] using h)
      · exact Or.inr (by simpa [not_lt] using h)
    · intro a _ b _ c _ hab hbc
      simp only [Bool.not_eq_true', decide_eq_false_iff_not, not_lt]
        at hab hbc ⊢
      exact hbc.trans hab
  · refine stableSortBy_filter _ _ _ ?_
    intro a _ b _ hpa hpb
    simp only [decide_eq_true_eq] at hpa hpb
    simp [hpa, hpb]

/-- Witness for C4 (amended) at the counterexample table. -/
theorem c4_scaleEntries_amended_witness :
    (([] : List Char), (1 : ℚ)) ∈
      ([(([] : List Char), (1 : ℚ)), ("k".data, 1000), ("K".data, 1000)] :
        Scales) ∧
    ∃ t, (buildScaleUtils [(([] : List Char), (1 : ℚ)), ("k".data, 1000),
        ("K".data, 1000)]).scaleEntries = ([], 1) :: t ∧
      t.Pairwise (fun a b => b.2 ≤ a.2) ∧
      t.Perm (([(([] : List Char), (1 : ℚ)), ("k".data, 1000),
        ("K".data, 1000)] : Scales).filter (fun e => !e.1.isEmpty)) ∧
      ∀ m : ℚ, t.filter (fun e => decide (e.2 = m)) =
        (([(([] : List Char), (1 : ℚ)), ("k".data, 1000),
          ("K".data, 1000)] : Scales).filter (fun e => !e.1.isEmpty)).filter
          (fun e => decide (e.2 = m)) :=
  ⟨by decide,
   c4_scaleEntries_amended
     [(([] : List Char), (1 : ℚ)), ("k".data, 1000), ("K".data, 1000)]
     (by decide)⟩

/-! ## Membership facts about the `processRunes` pipeline -/

theorem mem_sortStage {dir : Option SortDir} {l : List ProcessedRune}
    {p : ProcessedRune} : p ∈ sortStage dir l ↔ p ∈ l := by
  cases dir with
  | none => exact Iff.rfl
  | some d => cases d <;> exact (stableSortBy_perm _ _).mem_iff

theorem mem_of_mem_hideInstantStage {hide : Bool} {l : List ProcessedRune}
    {p : ProcessedRune} (h : p ∈ hideInstantStage hide l) : p ∈ l := by
  unfold hideInstantStage at h
  split at h
  · exact List.mem_of_mem_filter h
  · exact h

theorem mem_of_mem_textFilterStage {t : List Char} {l : List ProcessedRune}
    {p : ProcessedRune} (h : p ∈ textFilterStage t l) : p ∈ l := by
  unfold textFilterStage at h
  split at h
  · exact h
  · exact List.mem_of_mem_filter h

theorem time_of_mem_mapStage {runes : List RuneRecord} {rps luck : ℚ}
    {p : ProcessedRune} (h : p ∈ mapStage runes rps luck) :
    p.time = some (timeSeconds rps luck p.chanceN) := by
  obtain ⟨r, _, rfl⟩ := List.mem_map.mp h
  rfl

/-- Every rune produced by `processRunes` carries the time computed by
`timeSeconds` from its own chance denominator. -/
theorem time_of_mem_processRunes {runes : List RuneRecord} {rps luck : ℚ}
    {opts : ProcessOptions} {p : ProcessedRune}
    (hp : p ∈ processRunes runes rps luck opts) :
    p.time = some (timeSeconds rps luck p.chanceN) :=
  time_of_mem_mapStage
    (mem_of_mem_textFilterStage
      (mem_of_mem_hideInstantStage (mem_sortStage.mp hp)))

/-! ## C9 — time of non-computable runes -/

/-- C9 counterexample: for a rune with `chance.n = 0` the `time` field
of the processed rune is *defined* and equal to `Infinity`, not
omitted/undefined. -/
theorem c9_time_cex :
    (processRunes [⟨[], [], [], 0⟩] 1 1 {}).map (fun p => p.time)
        = [some JsNum.inf] ∧
      (some JsNum.inf : Option JsNum) ≠ none :=
  ⟨by with_unfolding_all rfl, by simp⟩

/-- C9 amended: for every rune whose time is not computable
(`rps ≤ 0`, `luck ≤ 0` or `chance.n ≤ 0`), the processed rune's `time`
field is set to `Infinity` (which the downstream filters and sort treat
exactly like an undefined time). -/
theorem c9_time_amended (runes : List RuneRecord) (rps luck : ℚ)
    (opts : ProcessOptions) (p : ProcessedRune)
    (hp : p ∈ processRunes runes rps luck opts)
    (h : rps ≤ 0 ∨ luck ≤ 0 ∨ p.chanceN ≤ 0) :
    p.time = some JsNum.inf := by
  rw [time_of_mem_processRunes hp, timeSeconds, if_pos h]

/-- Witness for C9 (amended) at a concrete rune list. -/
theorem c9_time_amended_witness :
    (⟨⟨[], [], [], 0⟩, some JsNum.inf, false⟩ : ProcessedRune) ∈
        processRunes [⟨[], [], [], 0⟩] 1 1 {} ∧
      (⟨⟨[], [], [], 0⟩, some JsNum.inf, false⟩ : ProcessedRune).time
        = some JsNum.inf :=
  ⟨by decide,
   c9_time_amended [⟨[], [], [], 0⟩] 1 1 {} _ (by decide)
     (Or.inr (Or.inr le_rfl))⟩

/-! ## C10 — `parseScaled` always returns a finite value -/

theorem isFiniteB_exists {x : JsNum} (h : x.isFiniteB = true) :
    ∃ q, x = .num q := by
  cases x <;> simp_all [JsNum.isFiniteB]

/-- C10: on every path — including successful suffix and
scientific-notation parses — the value returned by `parseScaled` is a
finite number, never `NaN` and never `±Infinity`. -/
theorem c10_parseScaled_finite (input : List Char) (su : ScaleUtils) :
    ∃ q, (parseScaled input su).value = JsNum.num q := by
  unfold parseScaled
  dsimp only
  split
  · exact ⟨0, rfl⟩
  · split
    · -- scientific-notation path
      split
      · exact ⟨0, rfl⟩
      · rename_i hfin
        obtain ⟨q, hq⟩ := isFiniteB_exists (by simpa using hfin)
        exact ⟨q, by simp [hq]⟩
    · split
      · -- no suffix matched: plain-number path
        split
        · exact ⟨0, rfl⟩
        · rename_i hfin
          obtain ⟨q, hq⟩ := isFiniteB_exists (by simpa using hfin)
          exact ⟨q, by simp [hq]⟩
      · -- suffix matched
        rename_i numPart sfx mult _
        split
        · rename_i b _
          split
          · exact ⟨0, rfl⟩
          · rename_i hfin
            obtain ⟨q, hq⟩ := isFiniteB_exists
              (x := fitJs (b * mult)) (by simpa using hfin)
            split
            · split
              · exact ⟨q, by simp [hq]⟩
              · exact ⟨q, by simp [hq]⟩
            · exact ⟨q, by simp [hq]⟩
        · exact ⟨0, rfl⟩

/-! ## C2 — graceful degradation of `parseScaled` -/

/-- C2: `parseScaled` always returns a result, and on every
uninterpretable input — empty after trimming, unparsable scientific
notation, no parsable plain number, unparsable numeric prefix before a
matched suffix, or a non-finite product — the value is 0 and the
warning is a non-null descriptive string. -/
theorem c2_parseScaled_graceful (input : List Char) (su : ScaleUtils) :
    (jsTrim input = [] →
      parseScaled input su = ⟨.num 0, some "Empty input".data⟩) ∧
    (((jsTrim input).contains 'e' || (jsTrim input).contains 'E') = true →
      (parseFloatQ (jsTrim input)).isFiniteB = false →
      parseScaled input su =
        ⟨.num 0, some "Invalid scientific notation".data⟩) ∧
    (jsTrim input ≠ [] →
      ((jsTrim input).contains 'e' || (jsTrim input).contains 'E') = false →
      suffixScan (jsTrim input) su.scaleEntries = none →
      (parseFloatQ (jsTrim input)).isFiniteB = false →
      parseScaled input su = ⟨.num 0, some "Invalid number format".data⟩) ∧
    (∀ numPart sfx mult, jsTrim input ≠ [] →
      ((jsTrim input).contains 'e' || (jsTrim input).contains 'E') = false →
      suffixScan (jsTrim input) su.scaleEntries = some (numPart, sfx, mult) →
      (parseFloatQ numPart).isFiniteB = false →
      parseScaled input su =
        ⟨.num 0, some "Invalid number part before suffix".data⟩) ∧
    (∀ numPart sfx mult b, jsTrim input ≠ [] →
      ((jsTrim input).contains 'e' || (jsTrim input).contains 'E') = false →
      suffixScan (jsTrim input) su.scaleEntries = some (numPart, sfx, mult) →
      parseFloatQ numPart = .num b →
      (fitJs (b * mult)).isFiniteB = false →
      parseScaled input su = ⟨.num 0, some "Result too large".data⟩) := by
  refine ⟨fun h0 => ?_, fun h1 h2 => ?_, fun h0 h1 h2 h3 => ?_,
    fun numPart sfx mult h0 h1 h2 h3 => ?_,
    fun numPart sfx mult b h0 h1 h2 h3 h4 => ?_⟩
  · unfold parseScaled
    simp [h0]
  · have h0 : jsTrim input ≠ [] := by
      intro he
      rw [he] at h1
      simp at h1
    unfold parseScaled
    dsimp only
    rw [if_neg (by simp [List.isEmpty_iff, h0]), if_pos h1,
      if_pos (by simp [h2])]
  · unfold parseScaled
    dsimp only
    rw [if_neg (by simp [List.isEmpty_iff, h0]),
      if_neg (by rw [h1]; exact Bool.false_ne_true), h2]
    dsimp only
    rw [if_pos (by simp [h3])]
  · unfold parseScaled
    dsimp only
    rw [if_neg (by simp [List.isEmpty_iff, h0]),
      if_neg (by rw [h1]; exact Bool.false_ne_true), h2]
    dsimp only
    rcases hpf : parseFloatQ numPart with _ | _ | _ | b
    · rfl
    · rfl
    · rfl
    · rw [hpf] at h3
      simp [JsNum.isFiniteB] at h3
  · unfold parseScaled
    dsimp only
    rw [if_neg (by simp [List.isEmpty_iff, h0]),
      if_neg (by rw [h1]; exact Bool.false_ne_true), h2]
    dsimp only
    rw [h3]
    dsimp only
    rw [if_pos (by simp [h4])]

/-- Witness for C2 at the uninterpretable input `"abc"`. -/
theorem c2_parseScaled_graceful_witness :
    jsTrim "abc".data ≠ [] ∧
    ((jsTrim "abc".data).contains 'e' ||
      (jsTrim "abc".data).contains 'E') = false ∧
    suffixScan (jsTrim "abc".data) exampleSU.scaleEntries = none ∧
    (parseFloatQ (jsTrim "abc".data)).isFiniteB = false ∧
    parseScaled "abc".data exampleSU =
      ⟨.num 0, some "Invalid number format".data⟩ :=
  ⟨by decide, by decide, by with_unfolding_all rfl, by with_unfolding_all rfl,
   (c2_parseScaled_graceful "abc".data exampleSU).2.2.1 (by decide) (by decide)
     (by with_unfolding_all rfl) (by with_unfolding_all rfl)⟩

/-! ## C5 — first-match-wins suffix selection -/

/-- The acceptance test of the suffix-matching loop: non-empty suffix,
case-insensitive textual match at the end of the input, and a remaining
prefix that parses as a finite number. -/
def suffixMatches (trimmed : List Char) (e : List Char × ℚ) : Bool :=
  (!e.1.isEmpty && (toLowerStr e.1).isSuffixOf (toLowerStr trimmed)) &&
    (parseFloatQ (trimmed.take (trimmed.length - e.1.length))).isFiniteB

/-- C5: the suffix loop accepts exactly the *first* entry (in the
table's descending-multiplier order) passing `suffixMatches`, rather
than the longest textual match; concretely, with suffixes `M` (1e6) and
`kM` (1000) both textually matching `"2kM"` with parsable prefixes, the
earlier, larger-multiplier `M` wins and the parse yields 2000000. -/
theorem c5_first_match :
    (∀ (trimmed : List Char) (entries : List (List Char × ℚ)),
      suffixScan trimmed entries =
        (entries.find? (suffixMatches trimmed)).map
          (fun e => (trimmed.take (trimmed.length - e.1.length), e.1, e.2))) ∧
    suffixMatches "2kM".data ("kM".data, 1000) = true ∧
    suffixMatches "2kM".data ("M".data, 1000000) = true ∧
    parseScaled "2kM".data
        (buildScaleUtils [(([] : List Char), 1), ("kM".data, 1000),
          ("M".data, 1000000)]) =
      ⟨.num 2000000, none⟩ := by
  refine ⟨fun trimmed entries => ?_, by with_unfolding_all rfl,
    by with_unfolding_all rfl, by with_unfolding_all rfl⟩
  induction entries with
  | nil => rfl
  | cons e rest ih =>
    obtain ⟨sfx, mult⟩ := e
    rw [suffixScan]
    cases h1 : (!sfx.isEmpty && (toLowerStr sfx).isSuffixOf (toLowerStr trimmed)) with
    | false =>
      rw [if_neg (by simp [h1])]
      rw [ih, List.find?_cons_of_neg _ (by simp [suffixMatches, h1])]
    | true =>
      rw [if_pos (by simp [h1])]
      cases h2 : (parseFloatQ
          (trimmed.take (trimmed.length - sfx.length))).isFiniteB with
      | false =>
        rw [if_neg (by simp [h2]), ih,
          List.find?_cons_of_neg _ (by simp [suffixMatches, h1, h2])]
      | true =>
        rw [if_pos (by simp [h2]),
          List.find?_cons_of_pos _ (by simp [suffixMatches, h1, h2])]
        rfl

/-! ## C6 — ambiguous suffixes still parse, with a warning -/

theorem fitJs_eq_num {q : ℚ} (h : (fitJs q).isFiniteB = true) :
    fitJs q = .num q := by
  unfold fitJs at h ⊢
  split_ifs at h ⊢ <;> simp_all [JsNum.isFiniteB]

/-- C6: when the matched suffix's lowercased form is in an ambiguous
group, the parse still succeeds with value = numeric prefix × matched
multiplier, and the warning names the matched suffix and lists the
other case-variants of its group. -/
theorem c6_ambiguous_warning (input : List Char) (su : ScaleUtils)
    (numPart sfx : List Char) (mult b : ℚ)
    (h0 : jsTrim input ≠ [])
    (h1 : ((jsTrim input).contains 'e' ||
      (jsTrim input).contains 'E') = false)
    (h2 : suffixScan (jsTrim input) su.scaleEntries
      = some (numPart, sfx, mult))
    (h3 : parseFloatQ numPart = .num b)
    (h4 : (fitJs (b * mult)).isFiniteB = true)
    (h5 : su.conflictingLowerCaseSuffixes.contains (toLowerStr sfx) = true)
    (h6 : (groupLookup su.lowerCaseScaleMap (toLowerStr sfx)).filter
      (fun s => s ≠ sfx) ≠ []) :
    parseScaled input su =
      ⟨.num (b * mult), some (ambiguityMsg sfx
        ((groupLookup su.lowerCaseScaleMap (toLowerStr sfx)).filter
          (fun s => s ≠ sfx)))⟩ := by
  unfold parseScaled
  dsimp only
  rw [if_neg (by simp [List.isEmpty_iff, h0]),
      if_neg (by rw [h1]; exact Bool.false_ne_true), h2]
  dsimp only
  rw [h3]
  dsimp only
  rw [if_neg (by simp [h4]), if_pos h5,
    if_pos (by rw [Bool.not_eq_true', List.isEmpty_eq_false]; exact h6),
    fitJs_eq_num h4]

/-- Witness for C6: the spec's own example, `"1.5k"` against a table
with both `k : 1000` and `K : 1000`, yields value 1500 and the
ambiguity warning listing `K`. -/
theorem c6_ambiguous_warning_witness :
    suffixScan (jsTrim "1.5k".data) exampleSU.scaleEntries
        = some ("1.5".data, "k".data, 1000) ∧
      exampleSU.conflictingLowerCaseSuffixes.contains
        (toLowerStr "k".data) = true ∧
      parseScaled "1.5k".data exampleSU =
        ⟨.num 1500, some (ambiguityMsg "k".data ["K".data])⟩ := by
  refine ⟨by with_unfolding_all rfl, by decide, ?_⟩
  have h := c6_ambiguous_warning "1.5k".data exampleSU "1.5".data "k".data
    1000 (3 / 2) (by decide) (by decide) (by with_unfolding_all rfl)
    (by with_unfolding_all rfl) (by with_unfolding_all rfl) (by decide)
    (by decide)
  rw [h]
  with_unfolding_all rfl

/-! ## C7 — `formatTimeHuman` -/

/-- The per-unit counts of the greedy decomposition: successive
`div`/`mod` by each unit size. -/
def specCounts : List (ℕ × List Char) → ℕ → List (ℕ × List Char)
  | [], _ => []
  | (u, nm) :: rest, rem => (rem / u, nm) :: specCounts rest (rem % u)

/-- Written from the claim's words (C7): decompose a floored second
count greedily into year/day/hour/minute/second units (365.25-day
year), keep only the first three non-zero units, render each as
`"<count> <unit>"` with the unit pluralised when the count ≠ 1, and
join with `", "`. -/
def claimedTimePhrase (n : ℕ) : List Char :=
  let y := n / 31557600
  let r1 := n % 31557600
  let d := r1 / 86400
  let r2 := r1 % 86400
  let h := r2 / 3600
  let r3 := r2 % 3600
  let m := r3 / 60
  let s := r3 % 60
  let counts := [(y, "year".data), (d, "day".data), (h, "hour".data),
    (m, "minute".data), (s, "second".data)]
  List.intercalate ", ".data
    (((counts.filter (fun c => c.1 ≠ 0)).take 3).map
      (fun c => renderUnit c.1 c.2))

/-- The unit loop of `formatTimeHuman` produces exactly the first three
non-zero greedy unit counts. -/
theorem timePartsGo_spec (us : List (ℕ × List Char)) :
    ∀ (rem : ℕ) (parts : List (List Char)),
    (∀ e ∈ us, 0 < e.1) → parts.length < 3 →
    timePartsGo us rem parts =
      (parts ++ ((specCounts us rem).filter (fun c => c.1 ≠ 0)).map
        (fun c => renderUnit c.1 c.2)).take 3 := by
  induction us with
  | nil =>
    intro rem parts _ hp
    rw [timePartsGo, specCounts]
    simp [List.take_of_length_le (Nat.le_of_lt hp)]
  | cons e rest ih =>
    obtain ⟨u, nm⟩ := e
    intro rem parts hu hp
    rw [timePartsGo, specCounts]
    by_cases h : u ≤ rem
    · rw [if_pos h]
      have hupos : 0 < u := hu (u, nm) (by simp)
      have hcount : rem / u ≠ 0 := (Nat.div_pos h hupos).ne'
      rw [List.filter_cons_of_pos (by simp [hcount]), List.map_cons]
      dsimp only
      by_cases h3 : 3 ≤ (parts ++ [renderUnit (rem / u) nm]).length
      · rw [if_pos h3]
        have hlen : (parts ++ [renderUnit (rem / u) nm]).length = 3 := by
          simp at h3 ⊢
          omega
        conv_rhs => rw [List.append_cons]
        rw [List.take_left' hlen]
      · rw [if_neg h3,
          ih (rem % u) (parts ++ [renderUnit (rem / u) nm])
            (fun e he => hu e (by simp [he])) (by simp at h3 ⊢; omega)]
        simp
    · rw [if_neg h]
      have h0 : rem / u = 0 := Nat.div_eq_of_lt (not_le.mp h)
      have hmod : rem % u = rem := Nat.mod_eq_of_lt (not_le.mp h)
      rw [List.filter_cons_of_neg (by simp [h0]), hmod]
      exact ih rem parts (fun e he => hu e (by simp [he])) hp

/-- `claimedTimePhrase` in terms of `specCounts`. -/
theorem claimedTimePhrase_eq (n : ℕ) :
    claimedTimePhrase n =
      List.intercalate ", ".data
        ((((specCounts TIME_UNITS n).filter (fun c => c.1 ≠ 0)).map
          (fun c => renderUnit c.1 c.2)).take 3) := by
  simp [claimedTimePhrase, specCounts, TIME_UNITS, List.map_take,
    Nat.div_one]

/-- A positive second count always yields at least one non-zero unit
count. -/
theorem specCounts_filter_ne_nil (n : ℕ) (hn : 1 ≤ n) :
    ((specCounts TIME_UNITS n).filter (fun c => c.1 ≠ 0)) ≠ [] := by
  intro hcon
  simp only [specCounts, TIME_UNITS, Nat.div_one] at hcon
  rw [List.filter_eq_nil_iff] at hcon
  simp at hcon
  omega

/-- In range, `formatTimeHuman` agrees with the claim's greedy
decomposition of the floor. -/
theorem formatTimeHuman_eq_claimed (q : ℚ) (h1 : 1 ≤ q)
    (h2 : q ≤ (10 : ℚ) ^ 15 * 31557600) :
    formatTimeHuman (.num q) = claimedTimePhrase ⌊q⌋.toNat := by
  have hn : 1 ≤ ⌊q⌋.toNat := by
    have hf : (1 : ℤ) ≤ ⌊q⌋ := Int.le_floor.mpr (by exact_mod_cast h1)
    omega
  unfold formatTimeHuman
  dsimp only
  rw [if_neg (not_lt.mpr h1), if_neg (not_lt.mpr h2)]
  rw [timePartsGo_spec _ _ _ (by decide) (by simp), List.nil_append]
  have hne : ((specCounts TIME_UNITS ⌊q⌋.toNat).filter
      (fun c => c.1 ≠ 0)) ≠ [] := specCounts_filter_ne_nil _ hn
  rw [if_neg (by
    simp only [List.isEmpty_eq_true, List.take_eq_nil_iff]
    push_neg
    exact ⟨by omega, by rw [Ne, List.map_eq_nil_iff]; exact hne⟩),
    claimedTimePhrase_eq]

/-- C7 counterexample: at `1e30` seconds the function returns the
ellipsis placeholder of the large-value guard, not the greedy
year/day/… decomposition the claim describes. -/
theorem c7_formatTimeHuman_cex :
    formatTimeHuman (.num ((10 : ℚ) ^ 30)) = ['…'] ∧
      ⌊((10 : ℚ) ^ 30)⌋.toNat = 10 ^ 30 ∧
      claimedTimePhrase (10 ^ 30) ≠ ['…'] :=
  ⟨by with_unfolding_all rfl, by with_unfolding_all rfl, by decide⟩

/-- C7 amended: `formatTimeHuman` returns `"Never"` for every
non-finite input, `"Instant"` for every input below 1, the ellipsis
placeholder `"…"` for every input above `1e15` years, and for all
inputs in between the greedy first-three-non-zero-units decomposition
of the floor; the claim's examples hold. -/
theorem c7_formatTimeHuman_amended :
    (∀ x : JsNum, x.isFiniteB = false → formatTimeHuman x = "Never".data) ∧
    (∀ q : ℚ, q < 1 → formatTimeHuman (.num q) = "Instant".data) ∧
    (∀ q : ℚ, 1 ≤ q → q ≤ (10 : ℚ) ^ 15 * 31557600 →
      formatTimeHuman (.num q) = claimedTimePhrase ⌊q⌋.toNat) ∧
    (∀ q : ℚ, (10 : ℚ) ^ 15 * 31557600 < q →
      formatTimeHuman (.num q) = ['…']) ∧
    formatTimeHuman (.num (1 / 2)) = "Instant".data ∧
    formatTimeHuman (.num 90) = "1 minute, 30 seconds".data ∧
    formatTimeHuman (.num 3665) = "1 hour, 1 minute, 5 seconds".data ∧
    formatTimeHuman .inf = "Never".data := by
  refine ⟨fun x hx => ?_, fun q hq => ?_, formatTimeHuman_eq_claimed,
    fun q hq => ?_, ?_, ?_, ?_, rfl⟩
  · cases x <;> simp [JsNum.isFiniteB] at hx <;> rfl
  · unfold formatTimeHuman
    dsimp only
    rw [if_pos hq]
  · have h1 : ¬ q < 1 := by
      have : (1 : ℚ) ≤ (10 : ℚ) ^ 15 * 31557600 := by norm_num
      push_neg
      linarith
    unfold formatTimeHuman
    dsimp only
    rw [if_neg h1, if_pos hq]
  · with_unfolding_all rfl
  · with_unfolding_all rfl
  · with_unfolding_all rfl

/-- Witness for C7 (amended) at 90 seconds. -/
theorem c7_formatTimeHuman_amended_witness :
    (1 : ℚ) ≤ 90 ∧ (90 : ℚ) ≤ (10 : ℚ) ^ 15 * 31557600 ∧
      formatTimeHuman (.num 90) = claimedTimePhrase ⌊(90 : ℚ)⌋.toNat ∧
      claimedTimePhrase ⌊(90 : ℚ)⌋.toNat = "1 minute, 30 seconds".data :=
  ⟨by norm_num, by norm_num,
   c7_formatTimeHuman_amended.2.2.1 90 (by norm_num) (by norm_num),
   by with_unfolding_all rfl⟩

/-! ## C8 — sorting in `processRunes` -/

theorem jsOverflow_pos : (0 : ℚ) < jsOverflow := by
  rw [jsOverflow]
  positivity

theorem jsGtZero_fitJs (q : ℚ) : jsGtZero (fitJs q) = true ↔ 0 < q := by
  unfold fitJs
  split_ifs with hA hB
  · exact iff_of_true rfl (lt_of_lt_of_le jsOverflow_pos hA)
  · exact iff_of_false (by simp [jsGtZero]) (by linarith [jsOverflow_pos])
  · simp [jsGtZero]

/-- The comparator never reports a positive difference between an
element and itself (equal keys subtract to 0 or `NaN`), so equal-keyed
elements always stay in order. -/
theorem jsGtZero_jsSub_self (x : JsNum) : jsGtZero (jsSub x x) = false := by
  cases x with
  | nan => rfl
  | inf => rfl
  | negInf => rfl
  | num q =>
    show jsGtZero (fitJs (q - q)) = false
    rw [sub_self]
    unfold fitJs
    rw [if_neg (by linarith [jsOverflow_pos]),
      if_neg (by linarith [jsOverflow_pos])]
    simp [jsGtZero]

/-- The time keys the pipeline can produce: finite or `+Infinity`. -/
def timeLike (x : JsNum) : Prop := x ≠ .nan ∧ x ≠ .negInf

theorem timeLike_timeSeconds (rps luck n : ℚ) :
    timeLike (timeSeconds rps luck n) := by
  unfold timeSeconds
  split <;> exact ⟨by simp, by simp⟩

/-- Read a time key into `WithTop ℚ` (`Infinity` becomes `⊤`). -/
def jsTop : JsNum → WithTop ℚ
  | .num q => (q : WithTop ℚ)
  | _ => ⊤

/-- The time of a processed rune as an element of `WithTop ℚ`
(undefined and infinite times are `⊤`). -/
def timeVal (r : ProcessedRune) : WithTop ℚ := jsTop (timeKey r)

/-- The JavaScript comparator acceptance `¬(x - y > 0)` coincides with
`≤` on time-like keys. -/
theorem jsSub_le_iff (x y : JsNum) (hx : timeLike x) (hy : timeLike y) :
    (!(jsGtZero (jsSub x y))) = true ↔ jsTop x ≤ jsTop y := by
  obtain ⟨hx1, hx2⟩ := hx
  obtain ⟨hy1, hy2⟩ := hy
  cases x with
  | nan => exact absurd rfl hx1
  | negInf => exact absurd rfl hx2
  | inf =>
    cases y with
    | nan => exact absurd rfl hy1
    | negInf => exact absurd rfl hy2
    | inf => simp [jsSub, jsGtZero, jsTop]
    | num qb => simp [jsSub, jsGtZero, jsTop]
  | num qa =>
    cases y with
    | nan => exact absurd rfl hy1
    | negInf => exact absurd rfl hy2
    | inf => simp [jsSub, jsGtZero, jsTop, le_top]
    | num qb =>
      dsimp only [jsSub, jsTop]
      rw [Bool.not_eq_true', WithTop.coe_le_coe]
      constructor
      · intro h
        by_contra hq
        push_neg at hq
        exact absurd ((jsGtZero_fitJs (qa - qb)).mpr (by linarith))
          (by simp [h])
      · intro h
        cases hgb : jsGtZero (fitJs (qa - qb)) with
        | false => rfl
        | true =>
          have := (jsGtZero_fitJs (qa - qb)).mp hgb
          linarith

theorem timeLike_of_mem_base {runes : List RuneRecord} {rps luck : ℚ}
    {text : List Char} {hide : Bool} {p : ProcessedRune}
    (hp : p ∈ hideInstantStage hide (textFilterStage text
      (mapStage runes rps luck))) : timeLike (timeKey p) := by
  have ht := time_of_mem_mapStage
    (mem_of_mem_textFilterStage (mem_of_mem_hideInstantStage hp))
  rw [timeKey, ht, Option.getD_some]
  exact timeLike_timeSeconds rps luck p.chanceN

/-- C8: with sort `'asc'` (resp. `'desc'`) the list `processRunes`
returns is a permutation of the filtered list that is non-decreasing
(resp. non-increasing) in time — an undefined time reading as
`+Infinity` — and the sort is stable: entries with equal time keys keep
their relative order. -/
theorem c8_processRunes_sorted (runes : List RuneRecord) (rps luck : ℚ)
    (text : List Char) (hide : Bool) :
    (processRunes runes rps luck ⟨text, hide, some .asc⟩).Perm
        (hideInstantStage hide (textFilterStage text
          (mapStage runes rps luck))) ∧
      (processRunes runes rps luck ⟨text, hide, some .asc⟩).Pairwise
        (fun a b => timeVal a ≤ timeVal b) ∧
      (∀ t : JsNum,
        (processRunes runes rps luck ⟨text, hide, some .asc⟩).filter
            (fun r => timeKey r = t) =
          (hideInstantStage hide (textFilterStage text
            (mapStage runes rps luck))).filter (fun r => timeKey r = t)) ∧
      (processRunes runes rps luck ⟨text, hide, some .desc⟩).Perm
        (hideInstantStage hide (textFilterStage text
          (mapStage runes rps luck))) ∧
      (processRunes runes rps luck ⟨text, hide, some .desc⟩).Pairwise
        (fun a b => timeVal b ≤ timeVal a) ∧
      (∀ t : JsNum,
        (processRunes runes rps luck ⟨text, hide, some .desc⟩).filter
            (fun r => timeKey r = t) =
          (hideInstantStage hide (textFilterStage text
            (mapStage runes rps luck))).filter (fun r => timeKey r = t)) := by
  have hkey : ∀ p ∈ hideInstantStage hide (textFilterStage text
      (mapStage runes rps luck)), timeLike (timeKey p) :=
    fun p hp => timeLike_of_mem_base hp
  have asc_iff : ∀ {a b : ProcessedRune}, timeLike (timeKey a) →
      timeLike (timeKey b) →
      (jsComparatorLe (fun x y => jsSub (timeKey x) (timeKey y)) a b = true ↔
        timeVal a ≤ timeVal b) :=
    fun {a b} ha hb => jsSub_le_iff (timeKey a) (timeKey b) ha hb
  have desc_iff : ∀ {a b : ProcessedRune}, timeLike (timeKey a) →
      timeLike (timeKey b) →
      (jsComparatorLe (fun x y => jsSub (timeKey y) (timeKey x)) a b = true ↔
        timeVal b ≤ timeVal a) :=
    fun {a b} ha hb => jsSub_le_iff (timeKey b) (timeKey a) hb ha
  refine ⟨stableSortBy_perm _ _, ?_, fun t => ?_, stableSortBy_perm _ _,
    ?_, fun t => ?_⟩
  · refine List.Pairwise.imp_of_mem ?_
      (stableSortBy_pairwise _ _
        (fun a ha b hb => ?_) (fun a ha b hb c hc hab hbc => ?_))
    · intro a b hma hmb h
      exact (asc_iff
        (hkey a ((stableSortBy_perm _ _).mem_iff.mp hma))
        (hkey b ((stableSortBy_perm _ _).mem_iff.mp hmb))).mp h
    · rcases le_total (timeVal a) (timeVal b) with h | h
      · exact Or.inl ((asc_iff (hkey a ha) (hkey b hb)).mpr h)
      · exact Or.inr ((asc_iff (hkey b hb) (hkey a ha)).mpr h)
    · exact (asc_iff (hkey a ha) (hkey c hc)).mpr
        (((asc_iff (hkey a ha) (hkey b hb)).mp hab).trans
          ((asc_iff (hkey b hb) (hkey c hc)).mp hbc))
  · refine stableSortBy_filter _ _ _ ?_
    intro a _ b _ hpa hpb
    simp only [decide_eq_true_eq] at hpa hpb
    simp only [jsComparatorLe]
    rw [hpa, hpb, jsGtZero_jsSub_self]
    rfl
  · refine List.Pairwise.imp_of_mem ?_
      (stableSortBy_pairwise _ _
        (fun a ha b hb => ?_) (fun a ha b hb c hc hab hbc => ?_))
    · intro a b hma hmb h
      exact (desc_iff
        (hkey a ((stableSortBy_perm _ _).mem_iff.mp hma))
        (hkey b ((stableSortBy_perm _ _).mem_iff.mp hmb))).mp h
    · rcases le_total (timeVal b) (timeVal a) with h | h
      · exact Or.inl ((desc_iff (hkey a ha) (hkey b hb)).mpr h)
      · exact Or.inr ((desc_iff (hkey b hb) (hkey a ha)).mpr h)
    · exact (desc_iff (hkey a ha) (hkey c hc)).mpr
        (((desc_iff (hkey b hb) (hkey c hc)).mp hbc).trans
          ((desc_iff (hkey a ha) (hkey b hb)).mp hab))
  · refine stableSortBy_filter _ _ _ ?_
    intro a _ b _ hpa hpb
    simp only [decide_eq_true_eq] at hpa hpb
    simp only [jsComparatorLe]
    rw [hpa, hpb, jsGtZero_jsSub_self]
    rfl

/-! ## C3 — round-trip of `formatScaled` through `parseScaled`

### Character facts -/

theorem char_eq_of_toNat_eq {c d : Char} (h : c.toNat = d.toNat) : c = d :=
  Char.eq_of_val_eq (UInt32.toNat.inj h)

theorem toNat_ofNat_of_valid {n : ℕ} (h : n.isValidChar) :
    (Char.ofNat n).toNat = n := by
  rw [Char.ofNat, dif_pos h]
  rfl

theorem isValidChar_of_small {n : ℕ} (h : n < 55296) : n.isValidChar :=
  Or.inl h

theorem isDigit_iff {c : Char} :
    c.isDigit = true ↔ 48 ≤ c.toNat ∧ c.toNat ≤ 57 := by
  simp [Char.isDigit, Char.toNat]
  exact Iff.rfl

theorem toLower_toNat (c : Char) :
    (Char.toLower c).toNat =
      if 65 ≤ c.toNat ∧ c.toNat ≤ 90 then c.toNat + 32 else c.toNat := by
  rw [Char.toLower]
  split_ifs with h1
  · exact toNat_ofNat_of_valid (isValidChar_of_small (by omega))
  · rfl

theorem digitChar_toNat {d : ℕ} (h : d < 10) :
    (Char.ofNat (48 + d)).toNat = 48 + d :=
  toNat_ofNat_of_valid (isValidChar_of_small (by omega))

theorem digitChar_isDigit {d : ℕ} (h : d < 10) :
    (Char.ofNat (48 + d)).isDigit = true := by
  rw [isDigit_iff, digitChar_toNat h]
  omega

/-! ### Digit-list facts -/

theorem natToDigits_ne_nil (n : ℕ) : natToDigits n ≠ [] := by
  rw [natToDigits_eq]
  split <;> simp

theorem mem_natToDigits (n : ℕ) :
    ∀ c ∈ natToDigits n, ∃ d, d < 10 ∧ c = Char.ofNat (48 + d) := by
  induction n using Nat.strong_induction_on with
  | _ n ih =>
    rw [natToDigits_eq]
    split
    · intro c hc
      rw [List.mem_singleton] at hc
      exact ⟨n, by omega, hc⟩
    · intro c hc
      rcases List.mem_append.mp hc with hc | hc
      · exact ih (n / 10) (by omega) c hc
      · rw [List.mem_singleton] at hc
        exact ⟨n % 10, by omega, hc⟩

theorem natToDigits_all_digit (n : ℕ) :
    ∀ c ∈ natToDigits n, c.isDigit = true := by
  intro c hc
  obtain ⟨d, hd, rfl⟩ := mem_natToDigits n c hc
  exact digitChar_isDigit hd

/-- `digitsVal` as a fold from an arbitrary accumulator. -/
theorem digitsVal_foldl (l : List Char) :
    ∀ a : ℕ, l.foldl (fun a c => 10 * a + (c.toNat - 48)) a
      = a * 10 ^ l.length + digitsVal l := by
  induction l with
  | nil => intro a; simp [digitsVal]
  | cons c t ih =>
    intro a
    show t.foldl _ (10 * a + (c.toNat - 48))
      = a * 10 ^ (c :: t).length + digitsVal (c :: t)
    rw [ih]
    have hdv : digitsVal (c :: t)
        = (c.toNat - 48) * 10 ^ t.length + digitsVal t := by
      show t.foldl _ (10 * 0 + (c.toNat - 48)) = _
      rw [ih]
      simp
    rw [hdv, List.length_cons]
    ring

theorem digitsVal_append (l1 l2 : List Char) :
    digitsVal (l1 ++ l2) = digitsVal l1 * 10 ^ l2.length + digitsVal l2 := by
  unfold digitsVal
  rw [List.foldl_append, digitsVal_foldl]
  rfl

theorem digitsVal_natToDigits (n : ℕ) : digitsVal (natToDigits n) = n := by
  induction n using Nat.strong_induction_on with
  | _ n ih =>
    rw [natToDigits_eq]
    split
    · show digitsVal [Char.ofNat (48 + n)] = n
      unfold digitsVal
      show 10 * 0 + ((Char.ofNat (48 + n)).toNat - 48) = n
      rw [digitChar_toNat (by omega)]
      omega
    · rw [digitsVal_append, ih (n / 10) (by omega)]
      show n / 10 * 10 ^ (1 : ℕ) + digitsVal [Char.ofNat (48 + n % 10)] = n
      unfold digitsVal
      show n / 10 * 10 ^ (1 : ℕ) + (10 * 0 + ((Char.ofNat (48 + n % 10)).toNat - 48)) = n
      rw [digitChar_toNat (by omega)]
      omega

theorem natToDigits_length_three {n : ℕ} (h1 : 100 ≤ n) (h2 : n < 1000) :
    (natToDigits n).length = 3 := by
  rw [natToDigits_eq, if_neg (by omega)]
  rw [natToDigits_eq, if_neg (by omega)]
  rw [natToDigits_eq, if_pos (by omega)]
  simp

theorem digitsVal_replicate_zero (k : ℕ) :
    digitsVal (List.replicate k '0') = 0 := by
  induction k with
  | zero => rfl
  | succ k ih =>
    rw [List.replicate_succ]
    unfold digitsVal at ih ⊢
    show List.foldl _ (10 * 0 + ('0'.toNat - 48)) _ = 0
    have : (10 * 0 + ('0'.toNat - 48)) = 0 := by decide
    rw [this]
    exact ih

theorem digitsVal_pad (k : ℕ) (l : List Char) :
    digitsVal (List.replicate k '0' ++ l) = digitsVal l := by
  rw [digitsVal_append, digitsVal_replicate_zero]
  simp

theorem digitsVal_take_drop (l : List Char) (i : ℕ) :
    digitsVal l
      = digitsVal (l.take i) * 10 ^ (l.length - i) + digitsVal (l.drop i) := by
  conv_lhs => rw [← List.take_append_drop i l]
  rw [digitsVal_append, List.length_drop]

/-! ### `takeWhile`/`dropWhile` helpers -/

theorem takeWhile_append_all {p : Char → Bool} (l1 l2 : List Char)
    (h : ∀ c ∈ l1, p c = true) :
    (l1 ++ l2).takeWhile p = l1 ++ l2.takeWhile p := by
  induction l1 with
  | nil => rfl
  | cons c t ih =>
    rw [List.cons_append, List.takeWhile_cons, if_pos (h c (by simp)),
      ih (fun c hc => h c (by simp [hc])), List.cons_append]

theorem dropWhile_append_all {p : Char → Bool} (l1 l2 : List Char)
    (h : ∀ c ∈ l1, p c = true) :
    (l1 ++ l2).dropWhile p = l2.dropWhile p := by
  induction l1 with
  | nil => rfl
  | cons c t ih =>
    rw [List.cons_append, List.dropWhile_cons, if_pos (h c (by simp))]
    exact ih (fun c hc => h c (by simp [hc]))

theorem takeWhile_eq_nil_of_head {p : Char → Bool} {l : List Char}
    (h : ∀ c, l.head? = some c → p c = false) : l.takeWhile p = [] := by
  cases l with
  | nil => rfl
  | cons c t => rw [List.takeWhile_cons, if_neg (by simp [h c rfl])]

theorem dropWhile_eq_self_of_head {p : Char → Bool} {l : List Char}
    (h : ∀ c, l.head? = some c → p c = false) : l.dropWhile p = l := by
  cases l with
  | nil => rfl
  | cons c t => rw [List.dropWhile_cons, if_neg (by simp [h c rfl])]

/-! ### `parseFloatQ` on printed numerals -/

/-- Characters allowed to follow a plain integer numeral without
extending it. -/
def headOkInt (rest : List Char) : Prop :=
  match rest with
  | [] => True
  | c :: _ => c.isDigit = false ∧ c ≠ '.' ∧ c ≠ 'e' ∧ c ≠ 'E'

/-- Characters allowed to follow a fractional numeral without
extending it. -/
def headOkFrac (rest : List Char) : Prop :=
  match rest with
  | [] => True
  | c :: _ => c.isDigit = false ∧ c ≠ 'e' ∧ c ≠ 'E'

theorem headOkInt_digit_false {rest : List Char} (h : headOkInt rest) :
    ∀ c, rest.head? = some c → c.isDigit = false := by
  cases rest with
  | nil => intro c hc; cases hc
  | cons c t =>
    intro c' hc'
    rw [List.head?_cons, Option.some.injEq] at hc'
    exact hc' ▸ h.1

theorem headOkFrac_digit_false {rest : List Char} (h : headOkFrac rest) :
    ∀ c, rest.head? = some c → c.isDigit = false := by
  cases rest with
  | nil => intro c hc; cases hc
  | cons c t =>
    intro c' hc'
    rw [List.head?_cons, Option.some.injEq] at hc'
    exact hc' ▸ h.1

/-- A digit character is not a sign, dot, exponent marker, whitespace,
or `'I'`. -/
theorem digit_char_facts {c : Char} (h : c.isDigit = true) :
    c ≠ '+' ∧ c ≠ '-' ∧ c ≠ '.' ∧ c ≠ 'e' ∧ c ≠ 'E' ∧ c ≠ 'I' ∧
      jsWhitespace c = false := by
  rw [isDigit_iff] at h
  refine ⟨?_, ?_, ?_, ?_, ?_, ?_, ?_⟩
  · intro hc; rw [hc] at h; revert h; decide
  · intro hc; rw [hc] at h; revert h; decide
  · intro hc; rw [hc] at h; revert h; decide
  · intro hc; rw [hc] at h; revert h; decide
  · intro hc; rw [hc] at h; revert h; decide
  · intro hc; rw [hc] at h; revert h; decide
  · rw [jsWhitespace]
    have h1 : c ≠ ' ' := by intro hc; rw [hc] at h; revert h; decide
    have h2 : c ≠ '\t' := by intro hc; rw [hc] at h; revert h; decide
    have h3 : c ≠ '\n' := by intro hc; rw [hc] at h; revert h; decide
    have h4 : c ≠ '\r' := by intro hc; rw [hc] at h; revert h; decide
    have h5 : c ≠ '\x0b' := by intro hc; rw [hc] at h; revert h; decide
    have h6 : c ≠ '\x0c' := by intro hc; rw [hc] at h; revert h; decide
    simp [h1, h2, h3, h4, h5, h6]

/-- `parseFloatQ` on a signed integer numeral followed by inert text:
exactly the digits' value (through the overflow fit). -/
theorem parseFloatQ_int (sgn : Bool) (D rest : List Char)
    (hne : D ≠ []) (hd : ∀ c ∈ D, c.isDigit = true)
    (hr : headOkInt rest) :
    parseFloatQ ((if sgn then ['-'] else []) ++ D ++ rest)
      = fitJs ((if sgn then (-1 : ℚ) else 1) * (digitsVal D : ℚ)) := by
  obtain ⟨c0, D', rfl⟩ : ∃ c0 D', D = c0 :: D' := by
    cases D with
    | nil => exact absurd rfl hne
    | cons c0 D' => exact ⟨c0, D', rfl⟩
  have hc0 := hd c0 (by simp)
  obtain ⟨hcp, hcm, _, _, _, hc0I, hc0w⟩ := digit_char_facts hc0
  have hInf : ¬ ((c0 :: (D' ++ rest)).take 8 = "Infinity".data) := by
    intro hcon
    rw [show (8 : ℕ) = 7 + 1 from rfl, List.take_succ_cons] at hcon
    simp only [List.cons.injEq] at hcon
    exact hc0I hcon.1
  have hip : (c0 :: (D' ++ rest)).takeWhile Char.isDigit = c0 :: D' := by
    rw [show c0 :: (D' ++ rest) = (c0 :: D') ++ rest by simp,
      takeWhile_append_all _ _ hd,
      takeWhile_eq_nil_of_head (headOkInt_digit_false hr), List.append_nil]
  have hr1 : (c0 :: (D' ++ rest)).dropWhile Char.isDigit = rest := by
    rw [show c0 :: (D' ++ rest) = (c0 :: D') ++ rest by simp,
      dropWhile_append_all _ _ hd,
      dropWhile_eq_self_of_head (headOkInt_digit_false hr)]
  have hdot : ¬ (rest.head? = some '.') := by
    cases rest with
    | nil => simp
    | cons c t =>
      simp only [List.head?_cons, Option.some.injEq]
      intro hc
      exact hr.2.1 hc
  have hex : ¬ (rest.head? = some 'e' ∨ rest.head? = some 'E') := by
    cases rest with
    | nil => simp
    | cons c t =>
      simp only [List.head?_cons, Option.some.injEq]
      rintro (hc | hc)
      · exact hr.2.2.1 hc
      · exact hr.2.2.2 hc
  unfold parseFloatQ
  dsimp only
  cases sgn with
  | true =>
    simp only [eq_self_iff_true, if_true, List.cons_append, List.nil_append]
    have hws : List.dropWhile jsWhitespace ('-' :: (c0 :: (D' ++ rest)))
        = '-' :: (c0 :: (D' ++ rest)) :=
      dropWhile_eq_self_of_head (by
        intro c hc
        rw [List.head?_cons, Option.some.injEq] at hc
        subst hc
        decide)
    rw [hws, List.head?_cons,
      if_pos (show some '-' = some '+' ∨ some '-' = some '-' from
        Or.inr rfl),
      List.tail_cons, if_neg hInf, hip, hr1, if_neg hdot, if_neg hdot,
      if_neg (by simp), if_neg hex,
      if_pos (show decide (some '-' = some '-') = true by decide)]
    congr 1
    norm_num [digitsVal]
  | false =>
    simp only [Bool.false_eq_true, if_false, List.nil_append,
      List.cons_append]
    have hws : List.dropWhile jsWhitespace (c0 :: (D' ++ rest))
        = c0 :: (D' ++ rest) :=
      dropWhile_eq_self_of_head (by
        intro c hc
        rw [List.head?_cons, Option.some.injEq] at hc
        subst hc
        exact hc0w)
    rw [hws, List.head?_cons,
      if_neg (show ¬ (some c0 = some '+' ∨ some c0 = some '-') by
        simp [hcp, hcm]),
      if_neg hInf, hip, hr1, if_neg hdot, if_neg hdot, if_neg (by simp),
      if_neg hex,
      if_neg (show ¬ decide (some c0 = some '-') = true by simp [hcm])]
    congr 1
    norm_num [digitsVal]

/-- `parseFloatQ` on a signed decimal numeral with fractional part,
followed by inert text. -/
theorem parseFloatQ_frac (sgn : Bool) (D1 D2 rest : List Char)
    (hne : D1 ≠ []) (hd1 : ∀ c ∈ D1, c.isDigit = true)
    (hd2 : ∀ c ∈ D2, c.isDigit = true) (hr : headOkFrac rest) :
    parseFloatQ ((if sgn then ['-'] else []) ++ D1 ++ '.' :: (D2 ++ rest))
      = fitJs ((if sgn then (-1 : ℚ) else 1) *
          ((digitsVal D1 : ℚ) + (digitsVal D2 : ℚ) / 10 ^ D2.length)) := by
  obtain ⟨c0, D', rfl⟩ : ∃ c0 D', D1 = c0 :: D' := by
    cases D1 with
    | nil => exact absurd rfl hne
    | cons c0 D' => exact ⟨c0, D', rfl⟩
  have hc0 := hd1 c0 (by simp)
  obtain ⟨hcp, hcm, _, _, _, hc0I, hc0w⟩ := digit_char_facts hc0
  have hInf : ¬ ((c0 :: (D' ++ '.' :: (D2 ++ rest))).take 8
      = "Infinity".data) := by
    intro hcon
    rw [show (8 : ℕ) = 7 + 1 from rfl, List.take_succ_cons] at hcon
    simp only [List.cons.injEq] at hcon
    exact hc0I hcon.1
  have hip : (c0 :: (D' ++ '.' :: (D2 ++ rest))).takeWhile Char.isDigit
      = c0 :: D' := by
    rw [show c0 :: (D' ++ '.' :: (D2 ++ rest))
        = (c0 :: D') ++ '.' :: (D2 ++ rest) by simp,
      takeWhile_append_all _ _ hd1, List.takeWhile_cons,
      if_neg (by decide), List.append_nil]
  have hr1 : (c0 :: (D' ++ '.' :: (D2 ++ rest))).dropWhile Char.isDigit
      = '.' :: (D2 ++ rest) := by
    rw [show c0 :: (D' ++ '.' :: (D2 ++ rest))
        = (c0 :: D') ++ '.' :: (D2 ++ rest) by simp,
      dropWhile_append_all _ _ hd1, List.dropWhile_cons,
      if_neg (by decide)]
  have hfp : (D2 ++ rest).takeWhile Char.isDigit = D2 := by
    rw [takeWhile_append_all _ _ hd2,
      takeWhile_eq_nil_of_head (headOkFrac_digit_false hr), List.append_nil]
  have hr2 : (D2 ++ rest).dropWhile Char.isDigit = rest := by
    rw [dropWhile_append_all _ _ hd2,
      dropWhile_eq_self_of_head (headOkFrac_digit_false hr)]
  have hex : ¬ (rest.head? = some 'e' ∨ rest.head? = some 'E') := by
    cases rest with
    | nil => simp
    | cons c t =>
      simp only [List.head?_cons, Option.some.injEq]
      rintro (hc | hc)
      · exact hr.2.1 hc
      · exact hr.2.2 hc
  unfold parseFloatQ
  dsimp only
  cases sgn with
  | true =>
    simp only [eq_self_iff_true, if_true, List.cons_append, List.nil_append]
    have hws : List.dropWhile jsWhitespace
        ('-' :: (c0 :: (D' ++ '.' :: (D2 ++ rest))))
        = '-' :: (c0 :: (D' ++ '.' :: (D2 ++ rest))) :=
      dropWhile_eq_self_of_head (by
        intro c hc
        rw [List.head?_cons, Option.some.injEq] at hc
        subst hc
        decide)
    rw [hws, List.head?_cons,
      if_pos (show some '-' = some '+' ∨ some '-' = some '-' from
        Or.inr rfl),
      List.tail_cons, if_neg hInf, hip, hr1, List.head?_cons,
      if_pos rfl, if_pos rfl, List.tail_cons, hfp, hr2,
      if_neg (by simp [hne]), if_neg hex,
      if_pos (show decide (some '-' = some '-') = true by decide)]
    congr 1
    rw [zpow_zero, mul_one]
  | false =>
    simp only [Bool.false_eq_true, if_false, List.nil_append,
      List.cons_append]
    have hws : List.dropWhile jsWhitespace
        (c0 :: (D' ++ '.' :: (D2 ++ rest)))
        = c0 :: (D' ++ '.' :: (D2 ++ rest)) :=
      dropWhile_eq_self_of_head (by
        intro c hc
        rw [List.head?_cons, Option.some.injEq] at hc
        subst hc
        exact hc0w)
    rw [hws, List.head?_cons,
      if_neg (show ¬ (some c0 = some '+' ∨ some c0 = some '-') by
        simp [hcp, hcm]),
      if_neg hInf, hip, hr1, List.head?_cons, if_pos rfl, if_pos rfl,
      List.tail_cons, hfp, hr2, if_neg (by simp [hne]), if_neg hex,
      if_neg (show ¬ decide (some c0 = some '-') = true by simp [hcm])]
    congr 1
    rw [zpow_zero, mul_one]

/-! ### Correctness of `jsNumToString` against `parseFloatQ` -/

theorem decimal_den_dvd (q : ℚ) (hdec : isDecimalRat q = true) :
    q.den ∣ 10 ^ decExponent q := by
  rw [isDecimalRat, decide_eq_true_eq] at hdec
  rw [show (10 : ℕ) = 2 * 5 from rfl, mul_pow, hdec]
  exact Nat.mul_dvd_mul
    (pow_dvd_pow 2 (le_max_left _ _)) (pow_dvd_pow 5 (le_max_right _ _))

theorem decimal_scaled (q : ℚ) (hdec : isDecimalRat q = true) :
    ((q * 10 ^ decExponent q).num.natAbs : ℚ)
        = |q| * 10 ^ decExponent q ∧
      (q * 10 ^ decExponent q).den = 1 := by
  obtain ⟨t, ht⟩ := decimal_den_dvd q hdec
  have hden0 : (q.den : ℚ) ≠ 0 := Nat.cast_ne_zero.mpr q.den_nz
  have hqden : q * (q.den : ℚ) = (q.num : ℚ) := by
    nth_rewrite 1 [← Rat.num_div_den q]
    exact div_mul_cancel₀ _ hden0
  have hint : q * 10 ^ decExponent q = ((q.num * t : ℤ) : ℚ) := by
    have h10 : (10 : ℚ) ^ decExponent q
        = ((10 ^ decExponent q : ℕ) : ℚ) := by push_cast; ring
    rw [h10, ht]
    push_cast
    rw [← mul_assoc, hqden]
  have hint2 : q * 10 ^ decExponent q = (q.num : ℚ) * t := by
    rw [hint]
    push_cast
    ring
  constructor
  · rw [hint, Rat.num_intCast, Int.cast_natAbs]
    push_cast
    rw [← hint2, abs_mul,
      abs_of_nonneg (by positivity : (0 : ℚ) ≤ 10 ^ decExponent q)]
  · rw [hint]
    exact Rat.den_intCast _

theorem replicate_zero_append_all_digit (j m : ℕ) :
    ∀ c ∈ List.replicate j '0' ++ natToDigits m, c.isDigit = true := by
  intro c hc
  rcases List.mem_append.mp hc with hc | hc
  · rw [List.eq_of_mem_replicate hc]
    decide
  · exact natToDigits_all_digit m c hc

/-- Parsing the exact decimal print of a non-zero decimal rational
recovers the value (before any range fit). -/
theorem parse_jsNumToString (q : ℚ) (hdec : isDecimalRat q = true)
    (hq0 : q ≠ 0) (rest : List Char) (hr : headOkInt rest) :
    parseFloatQ (jsNumToString (.num q) ++ rest) = fitJs q := by
  have hrF : headOkFrac rest := by
    cases rest with
    | nil => trivial
    | cons c t => exact ⟨hr.1, hr.2.2.1, hr.2.2.2⟩
  obtain ⟨hm, _⟩ := decimal_scaled q hdec
  have hsign : ∀ l1 l2 : List Char,
      (if q < 0 then l1 else l2) = (if decide (q < 0) = true then l1 else l2) := by
    intro l1 l2
    by_cases h : q < 0 <;> simp [h]
  have hval : ∀ v : ℚ,
      (v = ((q * 10 ^ decExponent q).num.natAbs : ℚ) / 10 ^ decExponent q) →
      (if decide (q < 0) = true then (-1 : ℚ) else 1) * v = q := by
    intro v hv
    have h10 : (0 : ℚ) < 10 ^ decExponent q := by positivity
    by_cases h : q < 0
    · rw [if_pos (by simpa using h), hv, hm]
      rw [abs_of_neg h]
      field_simp
    · rw [if_neg (by simpa using h), hv, hm]
      rw [abs_of_nonneg (not_lt.mp h)]
      field_simp
  unfold jsNumToString
  dsimp only
  rw [if_neg hq0, if_pos hdec]
  by_cases hk0 : decExponent q = 0
  · rw [if_pos hk0, hsign]
    rw [parseFloatQ_int (decide (q < 0)) _ rest (natToDigits_ne_nil _)
      (natToDigits_all_digit _) hr]
    congr 1
    rw [digitsVal_natToDigits]
    refine hval _ ?_
    rw [hk0]
    norm_num
  · rw [if_neg hk0, hsign]
    set k := decExponent q with hkdef
    set m := (q * 10 ^ k).num.natAbs with hmdef
    set D := natToDigits m with hDdef
    set padded := List.replicate (k + 1 - D.length) '0' ++ D with hpad
    have hpd : ∀ c ∈ padded, c.isDigit = true :=
      replicate_zero_append_all_digit _ _
    have hplen : k + 1 ≤ padded.length := by
      rw [hpad, List.length_append, List.length_replicate]
      omega
    have hIF : padded.take (padded.length - k) ++
        padded.drop (padded.length - k) = padded :=
      List.take_append_drop _ _
    have hIlen : (padded.take (padded.length - k)).length
        = padded.length - k := by
      rw [List.length_take]
      omega
    have hFlen : (padded.drop (padded.length - k)).length = k := by
      rw [List.length_drop]
      omega
    have hIne : padded.take (padded.length - k) ≠ [] := by
      intro hcon
      have := congrArg List.length hcon
      rw [hIlen] at this
      simp at this
      omega
    have hpadval : digitsVal padded = m := by
      rw [hpad, digitsVal_pad, hDdef, digitsVal_natToDigits]
    have hsplit : digitsVal (padded.take (padded.length - k)) * 10 ^ k
        + digitsVal (padded.drop (padded.length - k)) = m := by
      rw [← hpadval]
      conv_rhs => rw [digitsVal_take_drop padded (padded.length - k)]
      rw [show padded.length - (padded.length - k) = k by omega]
    have harr : ((if decide (q < 0) = true then ['-'] else []) ++
          padded.take (padded.length - k) ++ ['.'] ++
          padded.drop (padded.length - k)) ++ rest
        = (if decide (q < 0) = true then ['-'] else []) ++
          padded.take (padded.length - k) ++
          '.' :: (padded.drop (padded.length - k) ++ rest) := by
      simp [List.append_assoc]
    rw [harr, parseFloatQ_frac (decide (q < 0)) _ _ rest hIne
      (fun c hc => hpd c (List.mem_of_mem_take hc))
      (fun c hc => hpd c (List.mem_of_mem_drop hc)) hrF]
    congr 1
    rw [hFlen]
    refine hval _ ?_
    rw [eq_div_iff (by positivity : (10 : ℚ) ^ k ≠ 0), add_mul,
      div_mul_cancel₀ _ (by positivity : (10 : ℚ) ^ k ≠ 0)]
    rw [← hsplit]
    push_cast
    ring

/-! ### `toPrecision3` bounds and parsing -/

theorem rat_mul_den (q : ℚ) : q * (q.den : ℚ) = (q.num : ℚ) := by
  nth_rewrite 1 [← Rat.num_div_den q]
  exact div_mul_cancel₀ _ (Nat.cast_ne_zero.mpr q.den_nz)

/-- For `s ≥ 1` the decimal exponent brackets `s`. -/
theorem prec3Exp_bounds (s : ℚ) (h1 : 1 ≤ s) :
    (10 : ℚ) ^ prec3Exp s ≤ s ∧ s < 10 ^ (prec3Exp s + 1) := by
  set n := s.num.natAbs / s.den with hndef
  have hden : (0 : ℚ) < (s.den : ℚ) := by
    exact_mod_cast s.den_pos
  have hnum : (s.den : ℚ) ≤ (s.num : ℚ) := by
    have := mul_le_mul_of_nonneg_right h1 (le_of_lt hden)
    rw [one_mul, rat_mul_den] at this
    exact this
  have hnumAbs : (s.num.natAbs : ℚ) = (s.num : ℚ) := by
    have : (0 : ℚ) < (s.num : ℚ) := lt_of_lt_of_le hden hnum
    have hpos : 0 < s.num := by exact_mod_cast this
    rw [Int.cast_natAbs, abs_of_pos (by exact_mod_cast hpos)]
  have hn1 : 1 ≤ n := by
    rw [hndef]
    rw [Nat.le_div_iff_mul_le s.den_pos, one_mul]
    have : (s.den : ℚ) ≤ (s.num.natAbs : ℚ) := by rw [hnumAbs]; exact hnum
    exact_mod_cast this
  have hfl : (n : ℚ) ≤ s := by
    have h1' : (n * s.den : ℕ) ≤ s.num.natAbs := Nat.div_mul_le_self _ _
    have h2' : ((n : ℚ)) * (s.den : ℚ) ≤ (s.num : ℚ) := by
      rw [← hnumAbs]
      exact_mod_cast h1'
    refine (mul_le_mul_right hden).mp ?_
    rw [rat_mul_den]
    exact h2'
  have hlt : s < (n : ℚ) + 1 := by
    have h1' : s.num.natAbs < s.den * (n + 1) := Nat.lt_mul_div_succ _ s.den_pos
    have h2' : (s.num : ℚ) < (s.den : ℚ) * ((n : ℚ) + 1) := by
      rw [← hnumAbs]
      exact_mod_cast h1'
    rw [← rat_mul_den s] at h2'
    rw [mul_comm s _] at h2'
    exact (mul_lt_mul_left hden).mp h2'
  have hpe : prec3Exp s = Nat.log 10 n := by
    rw [prec3Exp, log10_eq_log, ← hndef]
  constructor
  · refine le_trans ?_ hfl
    rw [hpe]
    exact_mod_cast Nat.pow_log_le_self 10 (by omega)
  · refine lt_of_lt_of_le hlt ?_
    rw [hpe]
    have h := Nat.lt_pow_succ_log_self (by norm_num : 1 < 10) n
    have h' : n + 1 ≤ 10 ^ (Nat.log 10 n + 1) := h
    exact_mod_cast h'

/-- For `1 ≤ s` the rounded three-digit mantissa is within half a unit
of `s · 10^(2 − e₀)` and lies in `[100, 1000]`. -/
theorem prec3Round_bounds (s : ℚ) (h1 : 1 ≤ s) :
    |((prec3Round s : ℕ) : ℚ) - s * (10 : ℚ) ^ ((2 : ℤ) - prec3Exp s)| ≤ 1 / 2
      ∧ 100 ≤ prec3Round s ∧ prec3Round s ≤ 1000 := by
  obtain ⟨hlo, hhi⟩ := prec3Exp_bounds s h1
  set t := s * (10 : ℚ) ^ ((2 : ℤ) - prec3Exp s) with htdef
  have hzpos : (0 : ℚ) < (10 : ℚ) ^ ((2 : ℤ) - prec3Exp s) := by positivity
  have hten : ((10 : ℚ) ^ (prec3Exp s : ℕ))
      * (10 : ℚ) ^ ((2 : ℤ) - prec3Exp s) = 100 := by
    rw [← zpow_natCast (10 : ℚ) (prec3Exp s),
      ← zpow_add₀ (by norm_num : (10 : ℚ) ≠ 0)]
    norm_num
  have hten' : ((10 : ℚ) ^ (prec3Exp s + 1))
      * (10 : ℚ) ^ ((2 : ℤ) - prec3Exp s) = 1000 := by
    rw [← zpow_natCast (10 : ℚ) (prec3Exp s + 1),
      ← zpow_add₀ (by norm_num : (10 : ℚ) ≠ 0)]
    push_cast
    rw [show ((prec3Exp s : ℤ) + 1) + ((2 : ℤ) - prec3Exp s) = 3 by ring]
    norm_num
  have ht100 : (100 : ℚ) ≤ t := by
    rw [htdef, ← hten]
    exact mul_le_mul_of_nonneg_right hlo (le_of_lt hzpos)
  have ht1000 : t < 1000 := by
    rw [htdef, ← hten']
    exact mul_lt_mul_of_pos_right hhi hzpos
  have hfl_le : ((⌊t + 1 / 2⌋ : ℤ) : ℚ) ≤ t + 1 / 2 := Int.floor_le _
  have hfl_gt : t + 1 / 2 < ((⌊t + 1 / 2⌋ : ℤ) : ℚ) + 1 := Int.lt_floor_add_one _
  have h100 : (100 : ℤ) ≤ ⌊t + 1 / 2⌋ := by
    rw [Int.le_floor]
    push_cast
    linarith
  have h1000 : ⌊t + 1 / 2⌋ ≤ 1000 := by
    have : ⌊t + 1 / 2⌋ < 1001 := by
      rw [Int.floor_lt]
      push_cast
      linarith
    omega
  have hcast : ((⌊t + 1 / 2⌋.natAbs : ℕ) : ℚ) = ((⌊t + 1 / 2⌋ : ℤ) : ℚ) := by
    rw [Int.cast_natAbs]
    exact_mod_cast abs_of_nonneg (show (0 : ℤ) ≤ ⌊t + 1 / 2⌋ by omega)
  have hround : prec3Round s = ⌊t + 1 / 2⌋.natAbs := by
    rw [prec3Round, ← htdef]
  refine ⟨?_, ?_, ?_⟩
  · rw [hround, hcast, abs_le]
    constructor <;> linarith
  · rw [hround]; omega
  · rw [hround]; omega

/-- For `1 ≤ s < 1000` with no rounding overflow, the decimal exponent
is at most 2. -/
theorem prec3Exp_le_two (s : ℚ) (h1 : 1 ≤ s) (h2 : s < 1000) :
    prec3Exp s ≤ 2 := by
  obtain ⟨hlo, _⟩ := prec3Exp_bounds s h1
  by_contra hc
  push_neg at hc
  have h10 : (1000 : ℚ) ≤ (10 : ℚ) ^ prec3Exp s := by
    calc (1000 : ℚ) = ((10 ^ (3 : ℕ) : ℕ) : ℚ) := by norm_num
    _ ≤ ((10 ^ prec3Exp s : ℕ) : ℚ) := by
        exact_mod_cast Nat.pow_le_pow_right (by norm_num) (by omega)
    _ = (10 : ℚ) ^ prec3Exp s := by norm_cast
  linarith

/-- In range (`1 ≤ s < 1000`, no rounding overflow) `toPrecision3`
prints in fixed notation. -/
theorem toPrecision3_fixed (s : ℚ) (h1 : 1 ≤ s) (h2 : s < 1000)
    (h3 : prec3Round s < 1000) :
    toPrecision3 s =
      if prec3Exp s = 2 then natToDigits (prec3Round s)
      else (natToDigits (prec3Round s)).take (prec3Exp s + 1) ++ ['.'] ++
        (natToDigits (prec3Round s)).drop (prec3Exp s + 1) := by
  have he2 : prec3Exp s ≤ 2 := prec3Exp_le_two s h1 h2
  have hne : prec3Round s ≠ 1000 := by omega
  unfold toPrecision3
  rw [if_neg (not_lt.mpr h1)]
  dsimp only
  rw [if_neg hne, if_neg hne, if_pos (by omega : prec3Exp s < 3)]

/-- `toPrecision3` output in fixed notation, with an optional sign and
inert tail, parses back to `n₀ · 10^(e₀ − 2)` (before any range fit). -/
theorem toPrecision3_parse (s : ℚ) (h1 : 1 ≤ s) (h2 : s < 1000)
    (h3 : prec3Round s < 1000) (sgn : Bool) (rest : List Char)
    (hr : headOkInt rest) :
    parseFloatQ ((if sgn then ['-'] else []) ++ toPrecision3 s ++ rest)
      = fitJs ((if sgn then (-1 : ℚ) else 1) *
          ((prec3Round s : ℚ) * (10 : ℚ) ^ ((prec3Exp s : ℤ) - 2))) := by
  obtain ⟨hlo, hhi⟩ := prec3Exp_bounds s h1
  obtain ⟨_, hn100, _⟩ := prec3Round_bounds s h1
  have he2 : prec3Exp s ≤ 2 := prec3Exp_le_two s h1 h2
  have hne : prec3Round s ≠ 1000 := by omega
  have hform := toPrecision3_fixed s h1 h2 h3
  rcases Nat.lt_or_ge (prec3Exp s) 2 with he | he
  · have hlen : (natToDigits (prec3Round s)).length = 3 :=
      natToDigits_length_three hn100 h3
    rw [hform, if_neg (by omega : ¬ prec3Exp s = 2)]
    have harr : (if sgn then ['-'] else []) ++
        ((natToDigits (prec3Round s)).take (prec3Exp s + 1) ++ ['.'] ++
          (natToDigits (prec3Round s)).drop (prec3Exp s + 1)) ++ rest
        = (if sgn then ['-'] else []) ++
          (natToDigits (prec3Round s)).take (prec3Exp s + 1) ++
          '.' :: ((natToDigits (prec3Round s)).drop (prec3Exp s + 1) ++
            rest) := by
      simp [List.append_assoc]
    have htake_ne : (natToDigits (prec3Round s)).take (prec3Exp s + 1)
        ≠ [] := by
      apply List.ne_nil_of_length_pos
      rw [List.length_take, hlen]
      omega
    have htake_d : ∀ c ∈ (natToDigits (prec3Round s)).take (prec3Exp s + 1),
        c.isDigit = true :=
      fun c hc => natToDigits_all_digit _ c (List.mem_of_mem_take hc)
    have hdrop_d : ∀ c ∈ (natToDigits (prec3Round s)).drop (prec3Exp s + 1),
        c.isDigit = true :=
      fun c hc => natToDigits_all_digit _ c (List.mem_of_mem_drop hc)
    have hrF : headOkFrac rest := by
      cases rest with
      | nil => trivial
      | cons c t => exact ⟨hr.1, hr.2.2.1, hr.2.2.2⟩
    rw [harr, parseFloatQ_frac sgn _ _ rest htake_ne htake_d hdrop_d hrF]
    congr 2
    have hsplit := digitsVal_take_drop (natToDigits (prec3Round s))
      (prec3Exp s + 1)
    rw [digitsVal_natToDigits, hlen] at hsplit
    have hlend : ((natToDigits (prec3Round s)).drop (prec3Exp s + 1)).length
        = 2 - prec3Exp s := by
      rw [List.length_drop, hlen]
      omega
    have hz : (10 : ℚ) ^ ((prec3Exp s : ℤ) - 2)
        = ((10 : ℚ) ^ ((2 - prec3Exp s : ℕ)))⁻¹ := by
      rw [show ((prec3Exp s : ℤ) - 2) = -((2 - prec3Exp s : ℕ) : ℤ) by omega,
        zpow_neg, zpow_natCast]
    have hsplitQ : ((prec3Round s : ℕ) : ℚ)
        = (digitsVal ((natToDigits (prec3Round s)).take (prec3Exp s + 1)) : ℚ)
            * (10 : ℚ) ^ ((2 - prec3Exp s : ℕ))
          + (digitsVal ((natToDigits (prec3Round s)).drop (prec3Exp s + 1))
              : ℚ) := by
      rw [show 3 - (prec3Exp s + 1) = 2 - prec3Exp s from by omega] at hsplit
      exact_mod_cast hsplit
    rw [hlend, hz, hsplitQ]
    have h10 : ((10 : ℚ) ^ ((2 - prec3Exp s : ℕ))) ≠ 0 := by positivity
    field_simp
  · have he' : prec3Exp s = 2 := le_antisymm he2 he
    rw [hform, if_pos he']
    rw [parseFloatQ_int sgn _ rest (natToDigits_ne_nil _)
      (natToDigits_all_digit _) hr]
    rw [digitsVal_natToDigits]
    congr 2
    rw [he']
    norm_num

/-! ### Suffix tables fit for round-tripping -/

/-- Characters permitted in a scale suffix for the round-trip analysis:
letters other than the exponent markers `e`/`E` (this covers `K`, `M`,
`B`, `T` — every suffix the calculator ships). -/
def goodSuffixChar (c : Char) : Bool :=
  c.isAlpha && c ≠ 'e' && c ≠ 'E'

/-- Case-insensitive suffix-independence of two suffixes: neither
lowercased form ends the other. -/
def sfxIndepB (s1 s2 : List Char) : Bool :=
  !((toLowerStr s1).isSuffixOf (toLowerStr s2)) &&
    !((toLowerStr s2).isSuffixOf (toLowerStr s1))

/-- Pairwise suffix-independence of the non-empty suffixes of an entry
list. -/
def pairwiseIndep : List (List Char × ℚ) → Bool
  | [] => true
  | e :: rest =>
    rest.all (fun f => e.1.isEmpty || f.1.isEmpty || sfxIndepB e.1 f.1) &&
      pairwiseIndep rest

/-- A scale table that formats unambiguously: every suffix is made of
plain letters (no `e`/`E`), every multiplier is positive, and distinct
non-empty suffixes are case-insensitively suffix-independent. -/
def goodTable (su : ScaleUtils) : Bool :=
  su.scaleEntries.all
      (fun e => e.1.all goodSuffixChar && decide (0 < e.2)) &&
    pairwiseIndep su.scaleEntries

theorem sfxIndepB_comm (s1 s2 : List Char) :
    sfxIndepB s1 s2 = sfxIndepB s2 s1 := by
  rw [sfxIndepB, sfxIndepB, Bool.and_comm]

theorem pairwiseIndep_spec : ∀ {l : List (List Char × ℚ)},
    pairwiseIndep l = true → ∀ a ∈ l, ∀ b ∈ l, a ≠ b →
      a.1 ≠ [] → b.1 ≠ [] → sfxIndepB a.1 b.1 = true := by
  intro l
  induction l with
  | nil => intro _ a ha; cases ha
  | cons e rest ih =>
    intro h a ha b hb hab ha1 hb1
    rw [pairwiseIndep, Bool.and_eq_true, List.all_eq_true] at h
    obtain ⟨h1, h2⟩ := h
    rcases List.mem_cons.mp ha with rfl | ha' <;>
      rcases List.mem_cons.mp hb with rfl | hb'
    · exact absurd rfl hab
    · have hg := h1 b hb'
      simp only [Bool.or_eq_true, List.isEmpty_iff] at hg
      rcases hg with (hg | hg) | hg
      · exact absurd hg ha1
      · exact absurd hg hb1
      · exact hg
    · have hg := h1 a ha'
      simp only [Bool.or_eq_true, List.isEmpty_iff] at hg
      rcases hg with (hg | hg) | hg
      · exact absurd hg hb1
      · exact absurd hg ha1
      · rw [sfxIndepB_comm]; exact hg
    · exact ih h2 a ha' b hb' hab ha1 hb1

/-! ### Last-character and lowercase facts -/

theorem head?_mem {α : Type} {l : List α} {c : α} (h : l.head? = some c) :
    c ∈ l := by
  cases l with
  | nil => cases h
  | cons a t =>
    rw [List.head?_cons, Option.some.injEq] at h
    exact h ▸ List.mem_cons_self a t

theorem jsTrim_eq_self {l : List Char}
    (h : ∀ c ∈ l, jsWhitespace c = false) : jsTrim l = l := by
  unfold jsTrim
  rw [dropWhile_eq_self_of_head (fun c hc => h c (head?_mem hc)),
    dropWhile_eq_self_of_head
      (fun c hc => h c (List.mem_reverse.mp (head?_mem hc))),
    List.reverse_reverse]

theorem contains_eq_false_of_all {l : List Char} {a : Char}
    (h : ∀ c ∈ l, c ≠ a) : l.contains a = false := by
  induction l with
  | nil => rfl
  | cons b t ih =>
    rw [List.contains_cons,
      ih (fun c hc => h c (List.mem_cons_of_mem b hc)), Bool.or_false]
    exact beq_eq_false_iff_ne.mpr (Ne.symm (h b (List.mem_cons_self b t)))

theorem reverse_head_of_append (l1 l2 : List Char) (hne : l2 ≠ []) :
    (l1 ++ l2).reverse.head? = l2.reverse.head? := by
  rw [List.reverse_append]
  cases hr : l2.reverse with
  | nil => exact absurd (List.reverse_eq_nil_iff.mp hr) hne
  | cons d t => rw [List.cons_append, List.head?_cons, List.head?_cons]

theorem reverse_head_all {p : Char → Bool} {l : List Char} (hne : l ≠ [])
    (h : ∀ c ∈ l, p c = true) :
    ∃ d, l.reverse.head? = some d ∧ p d = true := by
  cases hr : l.reverse with
  | nil => exact absurd (List.reverse_eq_nil_iff.mp hr) hne
  | cons d t =>
    refine ⟨d, by rw [List.head?_cons], h d ?_⟩
    refine List.mem_reverse.mp ?_
    rw [hr]
    exact List.mem_cons_self d t

theorem suffix_of_suffix_length_le {l1 l2 L : List Char}
    (h1 : l1 <:+ L) (h2 : l2 <:+ L) (hle : l1.length ≤ l2.length) :
    l1 <:+ l2 := by
  rw [← List.reverse_prefix] at h1 h2 ⊢
  exact List.prefix_of_prefix_length_le h1 h2 (by simpa using hle)

theorem suffix_reverse_head {l1 l2 : List Char} (h : l1 <:+ l2) {c : Char}
    (hc : l1.reverse.head? = some c) : l2.reverse.head? = some c := by
  have hne : l1 ≠ [] := by
    intro he
    subst he
    cases hc
  obtain ⟨t, rfl⟩ := h
  rw [reverse_head_of_append t l1 hne]
  exact hc

theorem isAlpha_iff {c : Char} :
    c.isAlpha = true ↔
      (65 ≤ c.toNat ∧ c.toNat ≤ 90) ∨ (97 ≤ c.toNat ∧ c.toNat ≤ 122) := by
  simp [Char.isAlpha, Char.isUpper, Char.isLower, Char.toNat]
  exact Iff.rfl

theorem toLower_digit {c : Char} (h : c.isDigit = true) : c.toLower = c := by
  apply char_eq_of_toNat_eq
  rw [isDigit_iff] at h
  rw [toLower_toNat, if_neg (by omega)]

theorem toLower_not_digit_of_alpha {c : Char} (h : c.isAlpha = true) :
    (c.toLower).isDigit = false := by
  rw [isAlpha_iff] at h
  rw [Bool.eq_false_iff]
  intro hc
  rw [isDigit_iff] at hc
  rw [toLower_toNat] at hc
  split_ifs at hc <;> omega

/-- No all-letter suffix can case-insensitively end a string whose last
character is a digit. -/
theorem no_alpha_suffix_of_digit_last {trimmed sfx : List Char}
    (hd : ∃ d, trimmed.reverse.head? = some d ∧ d.isDigit = true)
    (hsfx : sfx ≠ []) (hgood : ∀ c ∈ sfx, goodSuffixChar c = true) :
    (toLowerStr sfx).isSuffixOf (toLowerStr trimmed) = false := by
  rw [Bool.eq_false_iff]
  intro hc
  rw [List.isSuffixOf_iff_suffix] at hc
  obtain ⟨d, hdh, hdd⟩ := hd
  have hlne : toLowerStr sfx ≠ [] := by
    intro he
    exact hsfx (List.map_eq_nil_iff.mp he)
  have hnotd : ∀ c ∈ toLowerStr sfx, (!c.isDigit) = true := by
    intro c hcm
    obtain ⟨c0, hc0m, rfl⟩ := List.mem_map.mp hcm
    have halpha : c0.isAlpha = true := by
      have := hgood c0 hc0m
      rw [goodSuffixChar, Bool.and_eq_true, Bool.and_eq_true] at this
      exact this.1.1
    rw [Bool.not_eq_true', toLower_not_digit_of_alpha halpha]
  obtain ⟨a, hah, haa⟩ := reverse_head_all hlne hnotd
  have hth : (toLowerStr trimmed).reverse.head? = some d.toLower := by
    rw [toLowerStr, ← List.map_reverse, List.head?_map, hdh]
    rfl
  have had : a = d.toLower :=
    Option.some.inj ((suffix_reverse_head hc hah).symm.trans hth)
  rw [had, toLower_digit hdd, hdd] at haa
  cases haa

/-! ### Character content of `jsNumToString` output -/

/-- Characters occurring in an exact decimal numeral. -/
def numChar (c : Char) : Bool :=
  c.isDigit || c = '.' || c = '-'

theorem numChar_of_digit {c : Char} (h : c.isDigit = true) :
    numChar c = true := by
  simp [numChar, h]

theorem numChar_not_ws {c : Char} (h : numChar c = true) :
    jsWhitespace c = false := by
  rw [numChar, Bool.or_eq_true, Bool.or_eq_true] at h
  rcases h with (h | h) | h
  · exact (digit_char_facts h).2.2.2.2.2.2
  · have hc := of_decide_eq_true h
    subst hc
    decide
  · have hc := of_decide_eq_true h
    subst hc
    decide

theorem numChar_ne_expMark {c : Char} (h : numChar c = true) :
    c ≠ 'e' ∧ c ≠ 'E' := by
  rw [numChar, Bool.or_eq_true, Bool.or_eq_true] at h
  rcases h with (h | h) | h
  · exact ⟨(digit_char_facts h).2.2.2.1, (digit_char_facts h).2.2.2.2.1⟩
  · have hc := of_decide_eq_true h
    subst hc
    exact ⟨by decide, by decide⟩
  · have hc := of_decide_eq_true h
    subst hc
    exact ⟨by decide, by decide⟩

theorem jsNumToString_numChar (q : ℚ) (hdec : isDecimalRat q = true)
    (hq0 : q ≠ 0) : ∀ c ∈ jsNumToString (.num q), numChar c = true := by
  have hsgn : ∀ c ∈ (if q < 0 then ['-'] else ([] : List Char)),
      numChar c = true := by
    split_ifs
    · intro c hc
      rw [List.mem_singleton] at hc
      subst hc
      decide
    · intro c hc
      cases hc
  unfold jsNumToString
  dsimp only
  rw [if_neg hq0, if_pos hdec]
  by_cases hk0 : decExponent q = 0
  · rw [if_pos hk0]
    intro c hc
    rcases List.mem_append.mp hc with hc | hc
    · exact hsgn c hc
    · exact numChar_of_digit (natToDigits_all_digit _ c hc)
  · rw [if_neg hk0]
    have hpd : ∀ c ∈ List.replicate
        (decExponent q + 1 -
          (natToDigits (q * 10 ^ decExponent q).num.natAbs).length) '0' ++
        natToDigits (q * 10 ^ decExponent q).num.natAbs, c.isDigit = true :=
      replicate_zero_append_all_digit _ _
    intro c hc
    rcases List.mem_append.mp hc with hc | hc
    · rcases List.mem_append.mp hc with hc | hc
      · rcases List.mem_append.mp hc with hc | hc
        · exact hsgn c hc
        · exact numChar_of_digit (hpd c (List.mem_of_mem_take hc))
      · rw [List.mem_singleton] at hc
        subst hc
        decide
    · exact numChar_of_digit (hpd c (List.mem_of_mem_drop hc))

theorem jsNumToString_last_digit (q : ℚ) (hdec : isDecimalRat q = true)
    (hq0 : q ≠ 0) :
    ∃ d, (jsNumToString (.num q)).reverse.head? = some d ∧
      d.isDigit = true := by
  unfold jsNumToString
  dsimp only
  rw [if_neg hq0, if_pos hdec]
  by_cases hk0 : decExponent q = 0
  · rw [if_pos hk0]
    rw [reverse_head_of_append _ _ (natToDigits_ne_nil _)]
    exact reverse_head_all (natToDigits_ne_nil _) (natToDigits_all_digit _)
  · rw [if_neg hk0]
    set k := decExponent q with hkdef
    set D := natToDigits (q * 10 ^ k).num.natAbs with hDdef
    set padded := List.replicate (k + 1 - D.length) '0' ++ D with hpad
    have hpd : ∀ c ∈ padded, c.isDigit = true := by
      rw [hpad, hDdef]
      exact replicate_zero_append_all_digit _ _
    have hplen : k + 1 ≤ padded.length := by
      rw [hpad, List.length_append, List.length_replicate]
      omega
    have hFlen : (padded.drop (padded.length - k)).length = k := by
      rw [List.length_drop]
      omega
    have hFne : padded.drop (padded.length - k) ≠ [] := by
      apply List.ne_nil_of_length_pos
      rw [hFlen]
      omega
    rw [reverse_head_of_append _ _ hFne]
    exact reverse_head_all hFne (fun c hc => hpd c (List.mem_of_mem_drop hc))

/-! ### The suffix-matching loop on clean inputs -/

theorem suffixScan_none {trimmed : List Char}
    {entries : List (List Char × ℚ)}
    (h : ∀ e ∈ entries, e.1 ≠ [] →
      (toLowerStr e.1).isSuffixOf (toLowerStr trimmed) = false) :
    suffixScan trimmed entries = none := by
  induction entries with
  | nil => rfl
  | cons e rest ih =>
    obtain ⟨sfx, mult⟩ := e
    rw [suffixScan]
    have hrest : suffixScan trimmed rest = none :=
      ih (fun f hf => h f (List.mem_cons_of_mem _ hf))
    by_cases hs : sfx = []
    · subst hs
      rw [if_neg (by simp)]
      exact hrest
    · rw [if_neg (by simp [h (sfx, mult) (List.mem_cons_self _ _) hs])]
      exact hrest

/-- `parseScaled` on the exact decimal print of a finite decimal value,
against entries whose suffixes are all plain letters: no suffix matches
and the numeral parses back exactly. -/
theorem parseScaled_numeral (q : ℚ) (su : ScaleUtils)
    (hdec : isDecimalRat q = true) (hq0 : q ≠ 0)
    (hgood : ∀ e ∈ su.scaleEntries, ∀ c ∈ e.1, goodSuffixChar c = true)
    (hlt : |q| < jsOverflow) :
    parseScaled (jsNumToString (.num q)) su = ⟨.num q, none⟩ := by
  have hch := jsNumToString_numChar q hdec hq0
  have hlast := jsNumToString_last_digit q hdec hq0
  have hne : jsNumToString (.num q) ≠ [] := by
    intro hcon
    obtain ⟨d, hdh, _⟩ := hlast
    rw [hcon] at hdh
    cases hdh
  have htrim : jsTrim (jsNumToString (.num q)) = jsNumToString (.num q) :=
    jsTrim_eq_self (fun c hc => numChar_not_ws (hch c hc))
  have hce : (jsNumToString (.num q)).contains 'e' = false :=
    contains_eq_false_of_all (fun c hc => (numChar_ne_expMark (hch c hc)).1)
  have hcE : (jsNumToString (.num q)).contains 'E' = false :=
    contains_eq_false_of_all (fun c hc => (numChar_ne_expMark (hch c hc)).2)
  have hscan : suffixScan (jsNumToString (.num q)) su.scaleEntries = none :=
    suffixScan_none (fun e he h1 =>
      no_alpha_suffix_of_digit_last hlast h1 (hgood e he))
  have hparse : parseFloatQ (jsNumToString (.num q)) = .num q := by
    have hp := parse_jsNumToString q hdec hq0 [] True.intro
    rw [List.append_nil] at hp
    rw [hp, fitJs, if_neg (not_le.mpr (lt_of_le_of_lt (le_abs_self q) hlt)),
      if_neg (not_le.mpr (neg_lt_of_abs_lt hlt))]
  unfold parseScaled
  dsimp only
  rw [htrim]
  rw [if_neg (by simp only [List.isEmpty_iff]; exact hne)]
  rw [hce, hcE]
  rw [if_neg (by simp)]
  rw [hscan]
  rw [hparse]
  rfl

/-! ### The suffix branch of `formatScaled` round-trips -/

theorem toLower_eq_space {c : Char} (h : c.toLower = ' ') : c = ' ' := by
  apply char_eq_of_toNat_eq
  have h2 := congrArg Char.toNat h
  rw [toLower_toNat] at h2
  have h32 : (' ' : Char).toNat = 32 := rfl
  rw [h32] at h2
  show c.toNat = 32
  split_ifs at h2 <;> omega

theorem goodSuffixChar_facts {c : Char} (h : goodSuffixChar c = true) :
    c.isAlpha = true ∧ c ≠ 'e' ∧ c ≠ 'E' := by
  rw [goodSuffixChar, Bool.and_eq_true, Bool.and_eq_true] at h
  exact ⟨h.1.1, of_decide_eq_true h.1.2, of_decide_eq_true h.2⟩

theorem goodSuffixChar_not_ws {c : Char} (h : goodSuffixChar c = true) :
    jsWhitespace c = false := by
  have halpha := (goodSuffixChar_facts h).1
  rw [isAlpha_iff] at halpha
  rw [jsWhitespace]
  have h1 : c ≠ ' ' := by
    intro hc; rw [hc] at halpha; exact absurd halpha (by decide)
  have h2 : c ≠ '\t' := by
    intro hc; rw [hc] at halpha; exact absurd halpha (by decide)
  have h3 : c ≠ '\n' := by
    intro hc; rw [hc] at halpha; exact absurd halpha (by decide)
  have h4 : c ≠ '\r' := by
    intro hc; rw [hc] at halpha; exact absurd halpha (by decide)
  have h5 : c ≠ '\x0b' := by
    intro hc; rw [hc] at halpha; exact absurd halpha (by decide)
  have h6 : c ≠ '\x0c' := by
    intro hc; rw [hc] at halpha; exact absurd halpha (by decide)
  simp [h1, h2, h3, h4, h5, h6]

theorem head?_append_of_ne_nil {l1 l2 : List Char} (h : l1 ≠ []) :
    (l1 ++ l2).head? = l1.head? := by
  cases l1 with
  | nil => exact absurd rfl h
  | cons a t => rw [List.cons_append, List.head?_cons, List.head?_cons]

theorem jsTrim_eq_self_of_ends {l : List Char}
    (h1 : ∀ c, l.head? = some c → jsWhitespace c = false)
    (h2 : ∀ c, l.reverse.head? = some c → jsWhitespace c = false) :
    jsTrim l = l := by
  unfold jsTrim
  rw [dropWhile_eq_self_of_head h1, dropWhile_eq_self_of_head h2,
    List.reverse_reverse]

theorem formatScan_mem {absNum : ℚ} {entries : List (List Char × ℚ)}
    {sfx : List Char} {mult : ℚ}
    (h : formatScan absNum entries = some (sfx, mult)) :
    (sfx, mult) ∈ entries ∧ sfx ≠ [] ∧ mult ≤ absNum := by
  induction entries with
  | nil => cases h
  | cons e rest ih =>
    obtain ⟨s1, m1⟩ := e
    rw [formatScan] at h
    by_cases hc : (!s1.isEmpty && decide (m1 ≤ absNum)) = true
    · rw [if_pos hc] at h
      have hp := Option.some.inj h
      rw [Prod.mk.injEq] at hp
      obtain ⟨rfl, rfl⟩ := hp
      rw [Bool.and_eq_true] at hc
      refine ⟨List.mem_cons_self _ _, ?_, of_decide_eq_true hc.2⟩
      rw [Bool.not_eq_true', List.isEmpty_eq_false] at hc
      exact hc.1
    · rw [if_neg hc] at h
      obtain ⟨hm, hx, hy⟩ := ih h
      exact ⟨List.mem_cons_of_mem _ hm, hx, hy⟩

/-- The suffix loop succeeds at the designated entry when every other
textually matching entry coincides with it. -/
theorem suffixScan_first {trimmed sfx : List Char} {mult : ℚ} :
    ∀ {entries : List (List Char × ℚ)}, (sfx, mult) ∈ entries →
    sfx ≠ [] →
    (toLowerStr sfx).isSuffixOf (toLowerStr trimmed) = true →
    (parseFloatQ (trimmed.take (trimmed.length - sfx.length))).isFiniteB
      = true →
    (∀ e ∈ entries, e.1 ≠ [] →
      (toLowerStr e.1).isSuffixOf (toLowerStr trimmed) = true →
      e = (sfx, mult)) →
    suffixScan trimmed entries
      = some (trimmed.take (trimmed.length - sfx.length), sfx, mult) := by
  intro entries
  induction entries with
  | nil =>
    intro h
    cases h
  | cons e rest ih =>
    intro hmem hne hsfx hfin huniq
    obtain ⟨s1, m1⟩ := e
    rw [suffixScan]
    by_cases he : (s1, m1) = (sfx, mult)
    · rw [Prod.mk.injEq] at he
      obtain ⟨rfl, rfl⟩ := he
      rw [if_pos (by simp [List.isEmpty_iff, hne, hsfx])]
      rw [if_pos hfin]
    · have hmem' : (sfx, mult) ∈ rest := by
        rcases List.mem_cons.mp hmem with h | h
        · exact absurd h.symm he
        · exact h
      have hrest := ih hmem' hne hsfx hfin
        (fun f hf => huniq f (List.mem_cons_of_mem _ hf))
      by_cases hs : s1 = []
      · subst hs
        rw [if_neg (by simp)]
        exact hrest
      · have hnotsuf : (toLowerStr s1).isSuffixOf (toLowerStr trimmed)
            = false := by
          rw [Bool.eq_false_iff]
          intro hcon
          exact he (huniq (s1, m1) (List.mem_cons_self _ _) hs hcon)
        rw [if_neg (by simp [hnotsuf])]
        exact hrest

/-- In a pairwise suffix-independent table of letter suffixes, the only
entry that can case-insensitively end `A' ++ ' ' :: sfx` is the `sfx`
entry itself. -/
theorem suffix_match_unique {entries : List (List Char × ℚ)}
    (hpair : pairwiseIndep entries = true)
    (hgchar : ∀ e ∈ entries, ∀ c ∈ e.1, goodSuffixChar c = true)
    {sfx : List Char} {mult : ℚ} (hmem : (sfx, mult) ∈ entries)
    (hsne : sfx ≠ []) (A' : List Char) :
    ∀ e ∈ entries, e.1 ≠ [] →
      (toLowerStr e.1).isSuffixOf (toLowerStr (A' ++ ' ' :: sfx)) = true →
      e = (sfx, mult) := by
  intro e he hene hsufB
  by_contra hne2
  have hsuf : toLowerStr e.1 <:+ toLowerStr (A' ++ ' ' :: sfx) :=
    List.isSuffixOf_iff_suffix.mp hsufB
  have hsp : Char.toLower ' ' = ' ' := rfl
  have hlow : toLowerStr (A' ++ ' ' :: sfx)
      = toLowerStr A' ++ ' ' :: toLowerStr sfx := by
    rw [toLowerStr, List.map_append, List.map_cons, hsp]
    rfl
  rcases le_or_lt (toLowerStr e.1).length (toLowerStr sfx).length
    with hle | hgt
  · have hsfxsuf : toLowerStr sfx <:+ toLowerStr (A' ++ ' ' :: sfx) := by
      rw [hlow]
      exact ⟨toLowerStr A' ++ [' '], by simp⟩
    have hsub : toLowerStr e.1 <:+ toLowerStr sfx :=
      suffix_of_suffix_length_le hsuf hsfxsuf hle
    have hindep := pairwiseIndep_spec hpair e he (sfx, mult) hmem hne2
      hene hsne
    rw [sfxIndepB, Bool.and_eq_true] at hindep
    have h1 := hindep.1
    rw [Bool.not_eq_true', Bool.eq_false_iff] at h1
    exact h1 (List.isSuffixOf_iff_suffix.mpr hsub)
  · have hspsuf : (' ' :: toLowerStr sfx) <:+ toLowerStr (A' ++ ' ' :: sfx)
        := by
      rw [hlow]
      exact ⟨toLowerStr A', rfl⟩
    have hsub : (' ' :: toLowerStr sfx) <:+ toLowerStr e.1 :=
      suffix_of_suffix_length_le hspsuf hsuf
        (by rw [List.length_cons]; omega)
    have hmemsp : (' ' : Char) ∈ toLowerStr e.1 := by
      obtain ⟨t, ht⟩ := hsub
      rw [← ht]
      exact List.mem_append.mpr (Or.inr (List.mem_cons_self _ _))
    obtain ⟨c0, hc0, hc0l⟩ := List.mem_map.mp hmemsp
    have hc0sp : c0 = ' ' := toLower_eq_space hc0l
    subst hc0sp
    exact absurd (hgchar e he ' ' hc0) (by decide)

theorem toPrecision3_numChar (s : ℚ) (h1 : 1 ≤ s) (h2 : s < 1000)
    (h3 : prec3Round s < 1000) : ∀ c ∈ toPrecision3 s, numChar c = true := by
  rw [toPrecision3_fixed s h1 h2 h3]
  split_ifs
  · exact fun c hc => numChar_of_digit (natToDigits_all_digit _ c hc)
  · intro c hc
    rcases List.mem_append.mp hc with hc | hc
    · rcases List.mem_append.mp hc with hc | hc
      · exact numChar_of_digit (natToDigits_all_digit _ c
          (List.mem_of_mem_take hc))
      · rw [List.mem_singleton] at hc
        subst hc
        decide
    · exact numChar_of_digit (natToDigits_all_digit _ c
        (List.mem_of_mem_drop hc))

theorem toPrecision3_ne_nil (s : ℚ) (h1 : 1 ≤ s) (h2 : s < 1000)
    (h3 : prec3Round s < 1000) : toPrecision3 s ≠ [] := by
  rw [toPrecision3_fixed s h1 h2 h3]
  split_ifs
  · exact natToDigits_ne_nil _
  · intro hcon
    have := congrArg List.length hcon
    rw [List.length_append, List.length_append] at this
    simp at this

theorem fitJs_of_abs_lt {x : ℚ} (h : |x| < jsOverflow) :
    fitJs x = .num x := by
  rw [fitJs, if_neg (not_le.mpr (lt_of_le_of_lt (le_abs_self x) h)),
    if_neg (not_le.mpr (neg_lt_of_abs_lt h))]

theorem jsOverflow_big : (1000 : ℚ) < jsOverflow := by
  rw [jsOverflow]
  have h : (1000 : ℕ) < 2 ^ 1024 := by
    calc (1000 : ℕ) < 2 ^ 10 := by norm_num
    _ ≤ 2 ^ 1024 := Nat.pow_le_pow_right (by norm_num) (by norm_num)
  exact_mod_cast h

/-- `parseScaled` on a `formatScaled` suffix-branch output
`sign ++ toPrecision3 (|q|/mult) ++ " " ++ sfx`: the same entry is
matched back and the value is the reparsed mantissa times the
multiplier. -/
theorem parseScaled_suffix_out (q : ℚ) (su : ScaleUtils)
    {sfx : List Char} {mult : ℚ}
    (hpair : pairwiseIndep su.scaleEntries = true)
    (hgchar : ∀ e ∈ su.scaleEntries, ∀ c ∈ e.1, goodSuffixChar c = true)
    (hmem : (sfx, mult) ∈ su.scaleEntries) (hsne : sfx ≠ [])
    (hs1 : 1 ≤ |q| / mult) (hslt : |q| / mult < 1000)
    (hn3 : prec3Round (|q| / mult) < 1000) (hm0 : 0 < mult)
    (hfit : ((prec3Round (|q| / mult) : ℚ)
        * (10 : ℚ) ^ ((prec3Exp (|q| / mult) : ℤ) - 2)) * mult
      < jsOverflow) :
    (parseScaled ((if q < 0 then ['-'] else []) ++
        toPrecision3 (|q| / mult) ++ [' '] ++ sfx) su).value
      = .num ((if q < 0 then (-1 : ℚ) else 1) *
          ((prec3Round (|q| / mult) : ℚ)
            * (10 : ℚ) ^ ((prec3Exp (|q| / mult) : ℤ) - 2)) * mult) := by
  obtain ⟨_, hn100, hn1000⟩ := prec3Round_bounds (|q| / mult) hs1
  have htp_chars := toPrecision3_numChar (|q| / mult) hs1 hslt hn3
  have htp_ne := toPrecision3_ne_nil (|q| / mult) hs1 hslt hn3
  set A' := (if q < 0 then ['-'] else []) ++ toPrecision3 (|q| / mult)
    with hAdef
  have hA'ne : A' ≠ [] := by
    rw [hAdef]
    intro hcon
    exact htp_ne (List.append_eq_nil.mp hcon).2
  have hA'chars : ∀ c ∈ A', numChar c = true := by
    intro c hc
    rw [hAdef] at hc
    rcases List.mem_append.mp hc with hc | hc
    · split_ifs at hc
      · rw [List.mem_singleton] at hc
        subst hc
        decide
      · cases hc
    · exact htp_chars c hc
  have hsfx_good : ∀ c ∈ sfx, goodSuffixChar c = true :=
    hgchar (sfx, mult) hmem
  have hout : A' ++ [' '] ++ sfx = A' ++ ' ' :: sfx := by
    simp
  -- the trimmed input is the input itself
  have htrim : jsTrim (A' ++ [' '] ++ sfx) = A' ++ [' '] ++ sfx := by
    apply jsTrim_eq_self_of_ends
    · intro c hc
      rw [head?_append_of_ne_nil (by simp [hA'ne]),
        head?_append_of_ne_nil hA'ne] at hc
      exact numChar_not_ws (hA'chars c (head?_mem hc))
    · intro c hc
      rw [reverse_head_of_append _ _ hsne] at hc
      exact goodSuffixChar_not_ws
        (hsfx_good c (List.mem_reverse.mp (head?_mem hc)))
  have hne_nil : A' ++ [' '] ++ sfx ≠ [] := by
    intro hcon
    exact hA'ne (List.append_eq_nil.mp
      (List.append_eq_nil.mp hcon).1).1
  have hmemchar : ∀ c ∈ A' ++ [' '] ++ sfx, c ≠ 'e' ∧ c ≠ 'E' := by
    intro c hc
    rcases List.mem_append.mp hc with hc | hc
    · rcases List.mem_append.mp hc with hc | hc
      · exact numChar_ne_expMark (hA'chars c hc)
      · rw [List.mem_singleton] at hc
        subst hc
        exact ⟨by decide, by decide⟩
    · exact ⟨(goodSuffixChar_facts (hsfx_good c hc)).2.1,
        (goodSuffixChar_facts (hsfx_good c hc)).2.2⟩
  have hce : (A' ++ [' '] ++ sfx).contains 'e' = false :=
    contains_eq_false_of_all (fun c hc => (hmemchar c hc).1)
  have hcE : (A' ++ [' '] ++ sfx).contains 'E' = false :=
    contains_eq_false_of_all (fun c hc => (hmemchar c hc).2)
  -- the numeric part before the suffix and its parse
  have htake : (A' ++ [' '] ++ sfx).take
      ((A' ++ [' '] ++ sfx).length - sfx.length) = A' ++ [' '] := by
    apply List.take_left'
    simp only [List.length_append]
    omega
  have hsigneq : ∀ l1 l2 : List Char,
      (if q < 0 then l1 else l2)
        = (if decide (q < 0) = true then l1 else l2) := by
    intro l1 l2
    by_cases h : q < 0 <;> simp [h]
  have hvq : ((if decide (q < 0) = true then (-1 : ℚ) else 1))
      = (if q < 0 then (-1 : ℚ) else 1) := by
    by_cases h : q < 0 <;> simp [h]
  have hparseA : parseFloatQ (A' ++ [' '])
      = .num ((if q < 0 then (-1 : ℚ) else 1) *
          ((prec3Round (|q| / mult) : ℚ)
            * (10 : ℚ) ^ ((prec3Exp (|q| / mult) : ℤ) - 2))) := by
    rw [hAdef, hsigneq]
    rw [toPrecision3_parse (|q| / mult) hs1 hslt hn3 (decide (q < 0)) [' ']
      ⟨by decide, by decide, by decide, by decide⟩]
    rw [hvq]
    apply fitJs_of_abs_lt
    have hz1 : (10 : ℚ) ^ ((prec3Exp (|q| / mult) : ℤ) - 2) ≤ 1 := by
      apply zpow_le_one_of_nonpos₀ (by norm_num)
      have := prec3Exp_le_two (|q| / mult) hs1 hslt
      omega
    have hz0 : (0 : ℚ) < (10 : ℚ) ^ ((prec3Exp (|q| / mult) : ℤ) - 2) := by
      positivity
    have habs : |(if q < 0 then (-1 : ℚ) else 1) *
        ((prec3Round (|q| / mult) : ℚ)
          * (10 : ℚ) ^ ((prec3Exp (|q| / mult) : ℤ) - 2))|
        = (prec3Round (|q| / mult) : ℚ)
          * (10 : ℚ) ^ ((prec3Exp (|q| / mult) : ℤ) - 2) := by
      rw [abs_mul]
      rw [show |if q < 0 then (-1 : ℚ) else 1| = 1 by
        by_cases h : q < 0 <;> simp [h]]
      rw [one_mul, abs_of_nonneg (by positivity)]
    rw [habs]
    calc (prec3Round (|q| / mult) : ℚ)
        * (10 : ℚ) ^ ((prec3Exp (|q| / mult) : ℤ) - 2)
        ≤ (prec3Round (|q| / mult) : ℚ) * 1 := by
          exact mul_le_mul_of_nonneg_left hz1 (by positivity)
    _ ≤ 1000 := by
        rw [mul_one]
        exact_mod_cast hn1000
    _ < jsOverflow := jsOverflow_big
  have hfinA : (parseFloatQ ((A' ++ [' '] ++ sfx).take
      ((A' ++ [' '] ++ sfx).length - sfx.length))).isFiniteB = true := by
    rw [htake, hparseA]
    rfl
  have hsufB : (toLowerStr sfx).isSuffixOf
      (toLowerStr (A' ++ [' '] ++ sfx)) = true := by
    rw [List.isSuffixOf_iff_suffix]
    show List.map Char.toLower sfx <:+
      List.map Char.toLower (A' ++ [' '] ++ sfx)
    rw [List.map_append]
    exact ⟨List.map Char.toLower (A' ++ [' ']), rfl⟩
  have huniq : ∀ e ∈ su.scaleEntries, e.1 ≠ [] →
      (toLowerStr e.1).isSuffixOf (toLowerStr (A' ++ [' '] ++ sfx)) = true →
      e = (sfx, mult) := by
    rw [hout]
    exact suffix_match_unique hpair hgchar hmem hsne A'
  have hscan : suffixScan (A' ++ [' '] ++ sfx) su.scaleEntries
      = some ((A' ++ [' '] ++ sfx).take
          ((A' ++ [' '] ++ sfx).length - sfx.length), sfx, mult) :=
    suffixScan_first hmem hsne hsufB hfinA huniq
  -- the final product and its range fit
  have hfitres : fitJs (((if q < 0 then (-1 : ℚ) else 1) *
      ((prec3Round (|q| / mult) : ℚ)
        * (10 : ℚ) ^ ((prec3Exp (|q| / mult) : ℤ) - 2))) * mult)
      = .num (((if q < 0 then (-1 : ℚ) else 1) *
          ((prec3Round (|q| / mult) : ℚ)
            * (10 : ℚ) ^ ((prec3Exp (|q| / mult) : ℤ) - 2))) * mult) := by
    apply fitJs_of_abs_lt
    rw [abs_mul, abs_mul]
    rw [show |if q < 0 then (-1 : ℚ) else 1| = 1 by
      by_cases h : q < 0 <;> simp [h]]
    rw [one_mul, abs_of_nonneg (le_of_lt hm0),
      abs_of_nonneg (by positivity : (0 : ℚ) ≤ (prec3Round (|q| / mult) : ℚ)
        * (10 : ℚ) ^ ((prec3Exp (|q| / mult) : ℤ) - 2))]
    exact hfit
  unfold parseScaled
  dsimp only
  rw [htrim]
  rw [if_neg (by simp only [List.isEmpty_iff]; exact hne_nil)]
  rw [hce, hcE, if_neg (by simp)]
  rw [hscan]
  dsimp only
  rw [htake, hparseA]
  dsimp only
  rw [hfitres]
  rw [if_neg (by simp [JsNum.isFiniteB])]
  split_ifs <;> rfl

/-- `parseScaled` on the one-character numeral `"0"` (what
`formatScaled` prints for zero). -/
theorem parseScaled_zero (su : ScaleUtils)
    (hgchar : ∀ e ∈ su.scaleEntries, ∀ c ∈ e.1, goodSuffixChar c = true) :
    parseScaled "0".data su = ⟨.num 0, none⟩ := by
  have hlast : ∃ d, ("0".data : List Char).reverse.head? = some d ∧
      d.isDigit = true := ⟨'0', rfl, rfl⟩
  have htrim : jsTrim "0".data = "0".data := by
    apply jsTrim_eq_self
    intro c hc
    rw [show ("0".data : List Char) = ['0'] from rfl,
      List.mem_singleton] at hc
    subst hc
    decide
  have hscan : suffixScan "0".data su.scaleEntries = none :=
    suffixScan_none (fun e he h1 =>
      no_alpha_suffix_of_digit_last hlast h1 (hgchar e he))
  have hparse : parseFloatQ "0".data = .num 0 := by
    with_unfolding_all rfl
  unfold parseScaled
  dsimp only
  rw [htrim]
  rw [if_neg (by decide)]
  rw [show ("0".data : List Char).contains 'e' = false from rfl,
    show ("0".data : List Char).contains 'E' = false from rfl,
    if_neg (by simp)]
  rw [hscan, hparse]
  rfl

/-! ## C3 — the `formatScaled`/`parseScaled` round-trip -/

def c3cexScales : Scales := [(([] : List Char), 1), ("K".data, 1000)]

def c3cexSU : ScaleUtils := buildScaleUtils c3cexScales

/-- C3 counterexample: `formatScaled(1e7, T)` with the unambiguous
table `{"": 1, "K": 1000}` prints `"1.00e+4 K"` (the `toPrecision(3)`
exponential fallback), and `parseScaled` takes its scientific-notation
path, ignoring the `" K"` tail: the round-trip returns 10000 instead of
10^7 — an error of 99.9 %, far outside 3-significant-digit precision
(the table is conflict-free, so the formatted suffix is unambiguous). -/
theorem c3_roundtrip_cex :
    formatScaled (.num 10000000) c3cexSU = "1.00e+4 K".data ∧
    c3cexSU.conflictingLowerCaseSuffixes = [] ∧
    parseScaled (formatScaled (.num 10000000) c3cexSU) c3cexSU
      = ⟨.num 10000, none⟩ ∧
    ¬ (|(10000 : ℚ) - 10000000| ≤ |(10000000 : ℚ)| / 200) := by
  refine ⟨by with_unfolding_all rfl, by with_unfolding_all rfl,
    by with_unfolding_all rfl, ?_⟩
  rw [not_le]
  rw [show |(10000 : ℚ) - 10000000| = 9990000 by
    rw [abs_of_nonpos (by norm_num)]; norm_num]
  rw [show |(10000000 : ℚ)| = 10000000 from abs_of_nonneg (by norm_num)]
  norm_num

/-- C3 amended: for every finite decimal value whose magnitude is
comfortably inside the double range, formatted against a table whose
suffixes are plain letters, positive-multiplier, and case-insensitively
suffix-independent (hence unambiguous), and for which the scaled
mantissa stays in fixed notation (`|x|/mult < 1000` and no rounding
overflow to 1000), `parseScaled (formatScaled x T) T` returns a value
within half a unit in the third significant digit — relative error at
most `|x|/200`. -/
theorem c3_roundtrip_amended (q : ℚ) (su : ScaleUtils)
    (hdec : isDecimalRat q = true)
    (hgood : goodTable su = true)
    (hsize : |q| * 201 < jsOverflow * 200)
    (hfix : ∀ sfx mult, formatScan |q| su.scaleEntries = some (sfx, mult) →
      |q| / mult < 1000 ∧ prec3Round (|q| / mult) < 1000) :
    ∃ v : ℚ, (parseScaled (formatScaled (.num q) su) su).value = .num v ∧
      |v - q| ≤ |q| / 200 := by
  rw [goodTable, Bool.and_eq_true, List.all_eq_true] at hgood
  obtain ⟨hent, hpair⟩ := hgood
  have hgchar : ∀ e ∈ su.scaleEntries, ∀ c ∈ e.1, goodSuffixChar c = true := by
    intro e he
    have h := hent e he
    rw [Bool.and_eq_true, List.all_eq_true] at h
    exact h.1
  have hpos : ∀ e ∈ su.scaleEntries, 0 < e.2 := by
    intro e he
    have h := hent e he
    rw [Bool.and_eq_true] at h
    exact of_decide_eq_true h.2
  have hqlt : |q| < jsOverflow := by
    have h1 : |q| * 201 < jsOverflow * 201 :=
      lt_of_lt_of_le hsize (mul_le_mul_of_nonneg_left (by norm_num)
        (le_of_lt jsOverflow_pos))
    exact lt_of_mul_lt_mul_right h1 (by norm_num)
  by_cases hq0 : q = 0
  · subst hq0
    refine ⟨0, ?_, by simp⟩
    have hfmt : formatScaled (.num 0) su = "0".data := by
      with_unfolding_all rfl
    rw [hfmt, parseScaled_zero su hgchar]
  · unfold formatScaled
    dsimp only
    rw [if_neg hq0]
    by_cases hsmall : |q| < 1000
    · rw [if_pos hsmall]
      rw [parseScaled_numeral q su hdec hq0 hgchar hqlt]
      exact ⟨q, rfl, by simp; positivity⟩
    · rw [if_neg hsmall]
      cases hscan : formatScan |q| su.scaleEntries with
      | none =>
        rw [parseScaled_numeral q su hdec hq0 hgchar hqlt]
        exact ⟨q, rfl, by simp; positivity⟩
      | some p =>
        obtain ⟨sfx, mult⟩ := p
        obtain ⟨hmem, hsne, hmle⟩ := formatScan_mem hscan
        have hm0 : 0 < mult := hpos _ hmem
        obtain ⟨hslt, hn3⟩ := hfix sfx mult hscan
        have hs1 : 1 ≤ |q| / mult := by
          rw [le_div_iff₀ hm0, one_mul]
          exact hmle
        obtain ⟨herr, hn100, hn1000⟩ := prec3Round_bounds (|q| / mult) hs1
        obtain ⟨hlo, hhi⟩ := prec3Exp_bounds (|q| / mult) hs1
        have hz0 : (0 : ℚ) <
            (10 : ℚ) ^ ((prec3Exp (|q| / mult) : ℤ) - 2) := by positivity
        have hsz : |q| / mult * (10 : ℚ) ^ ((2 : ℤ) - prec3Exp (|q| / mult))
            * (10 : ℚ) ^ ((prec3Exp (|q| / mult) : ℤ) - 2) = |q| / mult := by
          rw [mul_assoc,
            show (10 : ℚ) ^ ((2 : ℤ) - prec3Exp (|q| / mult))
                * (10 : ℚ) ^ ((prec3Exp (|q| / mult) : ℤ) - 2) = 1 by
              rw [← zpow_add₀ (by norm_num : (10 : ℚ) ≠ 0)]
              norm_num,
            mul_one]
        have herr2 : |(prec3Round (|q| / mult) : ℚ)
            * (10 : ℚ) ^ ((prec3Exp (|q| / mult) : ℤ) - 2) - |q| / mult|
            ≤ (10 : ℚ) ^ ((prec3Exp (|q| / mult) : ℤ) - 2) / 2 := by
          rw [show (prec3Round (|q| / mult) : ℚ)
              * (10 : ℚ) ^ ((prec3Exp (|q| / mult) : ℤ) - 2) - |q| / mult
              = ((prec3Round (|q| / mult) : ℚ) - |q| / mult
                  * (10 : ℚ) ^ ((2 : ℤ) - prec3Exp (|q| / mult)))
                * (10 : ℚ) ^ ((prec3Exp (|q| / mult) : ℤ) - 2) by
            rw [sub_mul, hsz]]
          rw [abs_mul, abs_of_pos hz0]
          calc |(prec3Round (|q| / mult) : ℚ) - |q| / mult
              * (10 : ℚ) ^ ((2 : ℤ) - prec3Exp (|q| / mult))|
              * (10 : ℚ) ^ ((prec3Exp (|q| / mult) : ℤ) - 2)
              ≤ 1 / 2 * (10 : ℚ) ^ ((prec3Exp (|q| / mult) : ℤ) - 2) :=
              mul_le_mul_of_nonneg_right herr (le_of_lt hz0)
          _ = (10 : ℚ) ^ ((prec3Exp (|q| / mult) : ℤ) - 2) / 2 := by ring
        have hz_le : (10 : ℚ) ^ ((prec3Exp (|q| / mult) : ℤ) - 2)
            ≤ (|q| / mult) / 100 := by
          rw [show (10 : ℚ) ^ ((prec3Exp (|q| / mult) : ℤ) - 2)
              = (10 : ℚ) ^ (prec3Exp (|q| / mult) : ℕ) / 100 by
            rw [zpow_sub₀ (by norm_num : (10 : ℚ) ≠ 0), zpow_natCast]
            norm_num]
          linarith [hlo]
        have herr3 : |(prec3Round (|q| / mult) : ℚ)
            * (10 : ℚ) ^ ((prec3Exp (|q| / mult) : ℤ) - 2) - |q| / mult|
            ≤ (|q| / mult) / 200 := le_trans herr2 (by linarith)
        have hv0_le : (prec3Round (|q| / mult) : ℚ)
            * (10 : ℚ) ^ ((prec3Exp (|q| / mult) : ℤ) - 2)
            ≤ (|q| / mult) * (201 / 200) := by
          have h2 := (abs_le.mp herr3).2
          linarith
        have hfit : ((prec3Round (|q| / mult) : ℚ)
            * (10 : ℚ) ^ ((prec3Exp (|q| / mult) : ℤ) - 2)) * mult
            < jsOverflow := by
          have h1 : ((prec3Round (|q| / mult) : ℚ)
              * (10 : ℚ) ^ ((prec3Exp (|q| / mult) : ℤ) - 2)) * mult
              ≤ (|q| / mult) * (201 / 200) * mult :=
            mul_le_mul_of_nonneg_right hv0_le (le_of_lt hm0)
          have h2 : (|q| / mult) * (201 / 200) * mult = |q| * 201 / 200 := by
            field_simp
            ring
          rw [h2] at h1
          linarith
        rw [parseScaled_suffix_out q su hpair hgchar hmem hsne hs1 hslt
          hn3 hm0 hfit]
        refine ⟨_, rfl, ?_⟩
        set N := (prec3Round (|q| / mult) : ℚ)
          * (10 : ℚ) ^ ((prec3Exp (|q| / mult) : ℤ) - 2) with hNdef
        have hmain : |N - |q| / mult| * mult ≤ |q| / 200 := by
          have h1 := mul_le_mul_of_nonneg_right herr3 (le_of_lt hm0)
          rw [show (|q| / mult) / 200 * mult = |q| / mult * mult / 200
            from by ring, div_mul_cancel₀ _ (ne_of_gt hm0)] at h1
          exact h1
        by_cases hqneg : q < 0
        · rw [if_pos hqneg]
          rw [abs_of_neg hqneg] at hmain ⊢
          have hexp : (-1 : ℚ) * N * mult - q = -((N - -q / mult) * mult) := by
            rw [sub_mul, div_mul_cancel₀ _ (ne_of_gt hm0)]
            ring
          rw [hexp, abs_neg, abs_mul, abs_of_nonneg (le_of_lt hm0)]
          exact hmain
        · rw [if_neg hqneg]
          rw [abs_of_nonneg (not_lt.mp hqneg)] at hmain ⊢
          have hexp : (1 : ℚ) * N * mult - q = (N - q / mult) * mult := by
            rw [sub_mul, div_mul_cancel₀ _ (ne_of_gt hm0)]
            ring
          rw [hexp, abs_mul, abs_of_nonneg (le_of_lt hm0)]
          exact hmain

def c3wScales : Scales :=
  [(([] : List Char), 1), ("K".data, 1000), ("M".data, 1000000)]

def c3wSU : ScaleUtils := buildScaleUtils c3wScales

/-- Witness for C3 (amended) at `x = 1 500 000` against
`{"": 1, "K": 1000, "M": 1e6}`: the format prints `"1.50 M"` and the
round-trip recovers a value within `|x|/200`. -/
theorem c3_roundtrip_amended_witness :
    ∃ v : ℚ, (parseScaled (formatScaled (.num 1500000) c3wSU) c3wSU).value
        = .num v ∧ |v - 1500000| ≤ |(1500000 : ℚ)| / 200 :=
  c3_roundtrip_amended 1500000 c3wSU (by with_unfolding_all rfl)
    (by with_unfolding_all rfl)
    (of_decide_eq_true (by with_unfolding_all rfl))
    (by
      intro sfx mult h
      rw [show formatScan |(1500000 : ℚ)| c3wSU.scaleEntries
          = some ("M".data, 1000000) from by with_unfolding_all rfl] at h
      have hp := Option.some.inj h
      rw [Prod.mk.injEq] at hp
      obtain ⟨rfl, rfl⟩ := hp
      exact ⟨of_decide_eq_true (by with_unfolding_all rfl),
        of_decide_eq_true (by with_unfolding_all rfl)⟩)

end RuneCalc
